import Mathlib

/-!
Verification of the smoothed-aggregation AMG setup kernels in
`templates/example_pyamg_smoothed_aggregation.h`.

Sparse matrices in CSR form are embedded as a list of rows, where each row is
the list of (column index, value) pairs stored between consecutive row
pointers `Ap[i] .. Ap[i+1]` (row pointers are assumed non-decreasing, as in
the C++ preconditions, so the flat `Aj`/`Ax` arrays decompose into exactly
these per-row segments).  Scalar values are embedded as rationals (exact
arithmetic standing for the C++ floating-point scalars); the tentative
prolongator fitter, whose algorithm takes square roots, is embedded over the
reals.  Machine integers are embedded as `Nat`/`Int`.

The header includes `linalg.h`, which is not part of the repository sources
available here; the handful of scalar primitives it provides (`mynorm`,
`mynormsq`, `dot`, `conjugate`, `gemm`) are modelled from the specification,
as noted on each corresponding definition.
-/

/-- Modelled from the spec: `linalg.h` is not under the available sources; the
spec describes `mynorm` as a "type-appropriate magnitude norm — absolute value
for real/complex scalars". Over the rational embedding of real scalars this is
the absolute value. -/
def mynorm (x : ℚ) : ℚ := |x|

/-- Modelled from the spec: `linalg.h` is not under the available sources; the
spec's `normSquared` is the squared magnitude, which for a real scalar is its
square. -/
def mynormsq (x : ℚ) : ℚ := x * x

/-- Accumulation of the stored diagonal entries of row `i`:
the loop `for jj: if (Aj[jj] == i) diag += Ax[jj]` of
`symmetric_strength_of_connection`. -/
def rowDiagSum (i : ℕ) (row : List (ℕ × ℚ)) : ℚ :=
  row.foldl (fun acc p => if p.1 = i then acc + p.2 else acc) 0

/-- The `diags` array of `symmetric_strength_of_connection`:
`diags[i] = mynorm(diag)` where `diag` sums the stored diagonal entries of
row `i`. -/
def diags (rows : List (List (ℕ × ℚ))) (i : ℕ) : ℚ :=
  mynorm (rowDiagSum i (rows.getD i []))

/-- The inner loop of `symmetric_strength_of_connection` for row `i`:
a stored entry `(j, Aij)` is emitted when `i == j` (the diagonal is always
added) or when `mynormsq(Aij) >= eps_Aii * diags[j]`, preserving order. -/
def strengthRow (i : ℕ) (eps_Aii : ℚ) (diag : ℕ → ℚ) :
    List (ℕ × ℚ) → List (ℕ × ℚ)
  | [] => []
  | (j, Aij) :: rest =>
    if j = i then (j, Aij) :: strengthRow i eps_Aii diag rest
    else if eps_Aii * diag j ≤ mynormsq Aij then
      (j, Aij) :: strengthRow i eps_Aii diag rest
    else strengthRow i eps_Aii diag rest

/-- The outer loop of `symmetric_strength_of_connection`, producing the rows
of `S` in order; `i` is the index of the first row of the remaining list and
`eps_Aii = theta*theta*diags[i]` is recomputed per row as in the source. -/
def strengthGo (theta : ℚ) (diag : ℕ → ℚ) :
    ℕ → List (List (ℕ × ℚ)) → List (List (ℕ × ℚ))
  | _, [] => []
  | i, row :: rest =>
    strengthRow i (theta * theta * diag i) diag row ::
      strengthGo theta diag (i + 1) rest

/-- Embedding of `symmetric_strength_of_connection` (lines 46-93): first the
`diags` array is computed from the input rows, then each row is filtered,
keeping diagonal entries unconditionally and off-diagonal entries satisfying
the strength test.  The output rows, concatenated in order, are the `Sj`/`Sx`
arrays, and their cumulative lengths are the output row pointer `Sp`. -/
def symmetric_strength_of_connection (theta : ℚ) (rows : List (List (ℕ × ℚ))) :
    List (List (ℕ × ℚ)) :=
  strengthGo theta (diags rows) 0 rows

/-- Row-pointer reconstruction for the row-list embedding: `rowPtrGo acc rows`
is the list `[acc, acc + |row 0|, acc + |row 0| + |row 1|, ...]`, so that
`rowPtrGo 0 rows` is the CSR row-pointer array of `rows`. -/
def rowPtrGo (acc : ℕ) : List (List (ℕ × ℚ)) → List ℕ
  | [] => [acc]
  | r :: rest => acc :: rowPtrGo (acc + r.length) rest

/-- CSR row-pointer array of a row-list matrix: `rowPtr rows = [0, ...]` with
`rowPtr rows !getD (i+1) = rowPtr rows !getD i + |row i|`. -/
def rowPtr (rows : List (List (ℕ × ℚ))) : List ℕ := rowPtrGo 0 rows

/-- State threaded through the aggregation routines: the node marking array
`x` (indexed by node, values as in the C++ code: `0` unmarked, positive
1-based aggregate ids in pass 1, negative encodings for attached/isolated
nodes), the root array `y` (Cpts), and the running counter `next_aggregate`.
The C++ arrays are embedded as total functions on `ℕ`; `y` is caller
allocated and uninitialized in the source, embedded with initial content 0. -/
structure AggState where
  x : ℕ → ℤ
  y : ℕ → ℕ
  next : ℕ

/-- Row `i` of the aggregation graph stores only diagonal entries, i.e. the
node has no stored off-diagonal neighbor ("isolated node"). -/
def isolatedRow (rows : List (List ℕ)) (i : ℕ) : Prop :=
  ∀ j ∈ rows.getD i [], j = i

/-- Column indices of every row are in range (the C++ precondition that `Aj`
holds valid node indices). -/
def wfGraph (rows : List (List ℕ)) : Prop :=
  ∀ i < rows.length, ∀ j ∈ rows.getD i [], j < rows.length

/-- Structural symmetry of the stored off-diagonal pattern, the documented
precondition "It is assumed that A is symmetric" of `standard_aggregation`. -/
def symmGraph (rows : List (List ℕ)) : Prop :=
  ∀ i < rows.length, ∀ j ∈ rows.getD i [], i ≠ j → i ∈ rows.getD j []

instance isolatedRowDec (rows : List (List ℕ)) (i : ℕ) :
    Decidable (isolatedRow rows i) :=
  List.decidableBAll _ _

instance wfGraphDec (rows : List (List ℕ)) : Decidable (wfGraph rows) :=
  Nat.decidableBallLT _ _

instance symmGraphDec (rows : List (List ℕ)) : Decidable (symmGraph rows) :=
  Nat.decidableBallLT _ _

/-- Pass 1 body of `standard_aggregation` (lines 128-161) for node `i`:
skip marked nodes; otherwise scan row `i` for off-diagonal neighbors and for
already-marked off-diagonal neighbors; an isolated node gets the sentinel
`-n_row`, a node whose neighbors are all free seeds a new aggregate marking
itself and every stored column of its row with `next_aggregate`, recording
itself as root `y[next_aggregate-1]`. -/
def pass1body (n : ℕ) (rows : List (List ℕ)) (s : AggState) (i : ℕ) : AggState :=
  if s.x i ≠ 0 then s
  else
    let row := rows.getD i []
    if row.any (fun j => decide (j ≠ i) && decide (s.x j ≠ 0)) then s
    else if row.all (fun j => decide (j = i)) then
      { s with x := Function.update s.x i (-(n : ℤ)) }
    else
      { x := fun k => if k = i ∨ k ∈ row then (s.next : ℤ) else s.x k,
        y := Function.update s.y (s.next - 1) i,
        next := s.next + 1 }

/-- Pass 2 body of `standard_aggregation` (lines 165-177) for node `i`:
an unmarked node is attached to the aggregate of the first stored neighbor
carrying a positive mark, with sign-flipped id. -/
def pass2body (rows : List (List ℕ)) (s : AggState) (i : ℕ) : AggState :=
  if s.x i ≠ 0 then s
  else
    match (rows.getD i []).find? (fun j => decide (0 < s.x j)) with
    | some j => { s with x := Function.update s.x i (-(s.x j)) }
    | none => s

/-- Pass 3 body of `standard_aggregation` (lines 182-211) for node `i`:
marked nodes are renormalized (`xi-1` for core members, `-1` for the isolated
sentinel `-n_row`, `-xi-1` for attached members); a still-unmarked node seeds
a brand-new aggregate with the current `next_aggregate` (0-based here),
absorbing its still-unmarked stored neighbors. -/
def pass3body (n : ℕ) (rows : List (List ℕ)) (s : AggState) (i : ℕ) : AggState :=
  let xi := s.x i
  if xi ≠ 0 then
    if 0 < xi then { s with x := Function.update s.x i (xi - 1) }
    else if xi = -(n : ℤ) then { s with x := Function.update s.x i (-1) }
    else { s with x := Function.update s.x i (-xi - 1) }
  else
    { x := fun k => if k = i ∨ (k ∈ rows.getD i [] ∧ s.x k = 0) then (s.next : ℤ)
        else s.x k,
      y := Function.update s.y s.next i,
      next := s.next + 1 }

/-- Embedding of `standard_aggregation` (lines 115-215): `x` is zero-filled,
`next_aggregate` starts at 1, the three passes run in index order over all
nodes, with the `next_aggregate--` decrement between passes 2 and 3; the
returned aggregate count is the final `next` field. -/
def standard_aggregation (rows : List (List ℕ)) : AggState :=
  let n := rows.length
  let s1 := (List.range n).foldl (pass1body n rows) ⟨fun _ => 0, fun _ => 0, 1⟩
  let s2 := (List.range n).foldl (pass2body rows) s1
  (List.range n).foldl (pass3body n rows) { s2 with next := s2.next - 1 }

/-- Loop body of `naive_aggregation` (lines 250-268) for node `i`: an
unmarked node seeds aggregate `next_aggregate` (1-based), absorbing its
still-unmarked stored neighbors, and records itself as root. -/
def naivebody (rows : List (List ℕ)) (s : AggState) (i : ℕ) : AggState :=
  if s.x i ≠ 0 then s
  else
    { x := fun k => if k = i ∨ (k ∈ rows.getD i [] ∧ s.x k = 0) then (s.next : ℤ)
        else s.x k,
      y := Function.update s.y (s.next - 1) i,
      next := s.next + 1 }

/-- Embedding of `naive_aggregation` (lines 238-271); the C++ routine returns
`next_aggregate - 1`, i.e. `(naive_aggregation rows).next - 1`. -/
def naive_aggregation (rows : List (List ℕ)) : AggState :=
  (List.range rows.length).foldl (naivebody rows) ⟨fun _ => 0, fun _ => 0, 1⟩

/-- Renormalization map applied by pass 3 of `standard_aggregation` to the
mark of an already-aggregated node. -/
def pass3convert (n : ℤ) (v : ℤ) : ℤ :=
  if 0 < v then v - 1 else if v = -n then -1 else -v - 1

/-- Per-entry update of `satisfy_constraints_helper` at stored position
`pos` of block row `i`: the source's two `gemm` calls (lines 531-539).
Modelled from the spec for the absent `linalg.h` `gemm`: the first call
computes `C = BtBinv[i] * Bconj[Sj[j]]^H` and the second
`Update = UB[i] * C`, which is subtracted in place from `Sx[pos]`; over the
real (rational) embedding the conjugate transpose `^H` is `transpose`. -/
def satisfyStep (RpB CpB NullDim : ℕ)
    (x : ℕ → Matrix (Fin CpB) (Fin NullDim) ℚ)
    (y : ℕ → Matrix (Fin RpB) (Fin NullDim) ℚ)
    (z : ℕ → Matrix (Fin NullDim) (Fin NullDim) ℚ)
    (Sj : List ℕ) (i : ℕ)
    (Sx : List (Matrix (Fin RpB) (Fin CpB) ℚ)) (pos : ℕ) :
    List (Matrix (Fin RpB) (Fin CpB) ℚ) :=
  Sx.set pos (Sx.getD pos 0 - y i * (z i * (x (Sj.getD pos 0)).transpose))

/-- Embedding of `satisfy_constraints_helper` (lines 497-542): `x` holds the
block rows of the conjugated near-nullspace candidates `Bconj` (the source's
`Bt`), `y` the block rows of `UB = S*B`, `z` the per-block-row `BtBinv`
matrices; for each block row `i < num_block_rows` and each stored position
`pos` in `[Sp[i], Sp[i+1])`, the block `Sx[pos]` is replaced in place by
`Sx[pos] - UB[i] * (BtBinv[i] * Bconj[Sj[pos]]^H)`. -/
def satisfy_constraints_helper (RpB CpB NullDim num_block_rows : ℕ)
    (x : ℕ → Matrix (Fin CpB) (Fin NullDim) ℚ)
    (y : ℕ → Matrix (Fin RpB) (Fin NullDim) ℚ)
    (z : ℕ → Matrix (Fin NullDim) (Fin NullDim) ℚ)
    (Sp Sj : List ℕ) (Sx : List (Matrix (Fin RpB) (Fin CpB) ℚ)) :
    List (Matrix (Fin RpB) (Fin CpB) ℚ) :=
  (List.range num_block_rows).foldl
    (fun L i =>
      (List.range' (Sp.getD i 0) (Sp.getD (i + 1) 0 - Sp.getD i 0)).foldl
        (satisfyStep RpB CpB NullDim x y z Sj i) L)
    Sx

/-- Block row `i` of the product `S * B` for a BSR value list `L` on the
pattern `(Sp, Sj)`, with the candidate block rows given (conjugated) by `x`:
over the real embedding `B[j] = conj(B)[j] = x j`. -/
def rowSB (RpB CpB NullDim : ℕ) (x : ℕ → Matrix (Fin CpB) (Fin NullDim) ℚ)
    (Sp Sj : List ℕ) (L : List (Matrix (Fin RpB) (Fin CpB) ℚ)) (i : ℕ) :
    Matrix (Fin RpB) (Fin NullDim) ℚ :=
  ∑ pos ∈ Finset.Ico (Sp.getD i 0) (Sp.getD (i + 1) 0),
    L.getD pos 0 * x (Sj.getD pos 0)

/-- Gram matrix of the candidates restricted to the stored support of block
row `i` of the pattern `(Sp, Sj)`: the sum of `B[j]^H * B[j]` over the stored
block columns `j` of row `i` (over the real embedding, `transpose * self`). -/
def rowGram (CpB NullDim : ℕ) (x : ℕ → Matrix (Fin CpB) (Fin NullDim) ℚ)
    (Sp Sj : List ℕ) (i : ℕ) : Matrix (Fin NullDim) (Fin NullDim) ℚ :=
  ∑ pos ∈ Finset.Ico (Sp.getD i 0) (Sp.getD (i + 1) 0),
    (x (Sj.getD pos 0)).transpose * x (Sj.getD pos 0)

/-- Invariant carried through pass 1 of `standard_aggregation` after the
nodes `0..i-1` have been processed (for a well-formed symmetric graph):
`next_aggregate` stays at least 1; every mark is `0`, the isolated sentinel
`-n_row`, or a live 1-based aggregate id below `next_aggregate`; marks only
sit on valid nodes; every aggregate created so far contains at least two
distinct nodes (so twice the aggregate count is bounded by the number of
positively marked nodes); isolated nodes are marked with the sentinel exactly
once processed; non-isolated nodes never carry the sentinel; each recorded
root carries its own aggregate id; and every processed node left unmarked has
a positively marked stored off-diagonal neighbor. -/
structure Pass1Inv (rows : List (List ℕ)) (i : ℕ) (s : AggState) : Prop where
  hnext : 1 ≤ s.next
  hrange : ∀ k, s.x k = 0 ∨ s.x k = -(rows.length : ℤ) ∨
    (1 ≤ s.x k ∧ s.x k < (s.next : ℤ))
  hout : ∀ k, rows.length ≤ k → s.x k = 0
  hcount : 2 * (s.next - 1) ≤
    ((Finset.range rows.length).filter (fun k => 0 < s.x k)).card
  hiso : ∀ k, isolatedRow rows k →
    (k < i → s.x k = -(rows.length : ℤ)) ∧ (i ≤ k → s.x k = 0)
  hniso : ∀ k, ¬isolatedRow rows k → 0 ≤ s.x k
  hroot : ∀ a : ℕ, 1 ≤ a → a < s.next →
    s.y (a - 1) < rows.length ∧ s.x (s.y (a - 1)) = (a : ℤ)
  hzero : ∀ k, k < i → s.x k = 0 → ∃ j ∈ rows.getD k [], j ≠ k ∧ 0 < s.x j

/-- Invariant carried through pass 2 of `standard_aggregation` relative to
the pass-1 final state `s1`: the counter and roots are untouched, marked
nodes keep their pass-1 marks, and a node unmarked after pass 1 is either
still unmarked and not yet processed, or has been attached with a
sign-flipped live aggregate id. -/
structure Pass2Inv (s1 : AggState) (i : ℕ) (s : AggState) : Prop where
  hnext : s.next = s1.next
  hy : s.y = s1.y
  hkeep : ∀ k, s1.x k ≠ 0 → s.x k = s1.x k
  hfill : ∀ k, s1.x k = 0 →
    (s.x k = 0 ∧ i ≤ k) ∨
      ∃ a : ℕ, 1 ≤ a ∧ a < s1.next ∧ s.x k = -(a : ℤ)

/-- Invariant carried through pass 3 of `standard_aggregation` relative to
the (decremented) pass-2 final state `s2`, in the regime where no node is
left unmarked by pass 2: the counter and roots are untouched and processed
nodes have been renormalized pointwise via `pass3convert`. -/
structure Pass3Inv (n : ℕ) (s2 : AggState) (i : ℕ) (s : AggState) : Prop where
  hnext : s.next = s2.next
  hy : s.y = s2.y
  hdone : ∀ k, k < i → s.x k = pass3convert (n : ℤ) (s2.x k)
  htodo : ∀ k, i ≤ k → s.x k = s2.x k

/-- Per-row column lookup table of `incomplete_mat_mult_bsr` (lines 736-754):
before processing block row `i`, the dense array `S` maps each stored block
column `Sj[jj]`, `jj` in `[Sp[i], Sp[i+1])`, to the output position `jj`
(later duplicates win, as the C++ pointer assignments do), and every other
column to "absent" (`NULL`); the table is reverted after the row, which is
modelled by rebuilding it per row. -/
def bsrLookup (Sj : List ℕ) (lo hi : ℕ) : ℕ → Option ℕ :=
  (List.range' lo (hi - lo)).foldl
    (fun tbl jj => Function.update tbl (Sj.getD jj 0) (some jj)) (fun _ => none)

/-- Innermost accumulation of `incomplete_mat_mult_bsr` (lines 765-781) for
one stored entry `jj` of row `i` of `A`: loop over the stored entries `kk` of
row `Aj[jj]` of `B`; when the block column `Bj[kk]` is present in the row
lookup table, accumulate the block product `Ax[jj] * Bx[kk]` into that
position of `Sx` (the `gemm` call, modelled from the spec as a dense block
multiply-accumulate; the 1x1 fast path computes the same product), otherwise
skip the pair. -/
def immAccumB (brA bcA bcB : ℕ)
    (Ax : List (Matrix (Fin brA) (Fin bcA) ℚ))
    (Bx : List (Matrix (Fin bcA) (Fin bcB) ℚ))
    (Bp Bj : List ℕ) (lookup : ℕ → Option ℕ) (j jj : ℕ)
    (Sx : List (Matrix (Fin brA) (Fin bcB) ℚ)) :
    List (Matrix (Fin brA) (Fin bcB) ℚ) :=
  (List.range' (Bp.getD j 0) (Bp.getD (j + 1) 0 - Bp.getD j 0)).foldl
    (fun L kk =>
      match lookup (Bj.getD kk 0) with
      | some pos => L.set pos (L.getD pos 0 + Ax.getD jj 0 * Bx.getD kk 0)
      | none => L)
    Sx

/-- Processing of one block row `i` by `incomplete_mat_mult_bsr`
(lines 757-783): loop over the stored entries `jj` of row `i` of `A`, taking
`j = Aj[jj]`, and accumulate over row `j` of `B` against the row lookup
table. -/
def immRow (brA bcA bcB : ℕ)
    (Ap Aj : List ℕ) (Ax : List (Matrix (Fin brA) (Fin bcA) ℚ))
    (Bp Bj : List ℕ) (Bx : List (Matrix (Fin bcA) (Fin bcB) ℚ))
    (lookup : ℕ → Option ℕ) (i : ℕ)
    (Sx : List (Matrix (Fin brA) (Fin bcB) ℚ)) :
    List (Matrix (Fin brA) (Fin bcB) ℚ) :=
  (List.range' (Ap.getD i 0) (Ap.getD (i + 1) 0 - Ap.getD i 0)).foldl
    (fun L jj => immAccumB brA bcA bcB Ax Bx Bp Bj lookup (Aj.getD jj 0) jj L)
    Sx

/-- Embedding of `incomplete_mat_mult_bsr` (lines 728-792): for each block
row `i < n_brow`, the per-row lookup table is built from the stored entries
of row `i` of `S` and the row is processed; only the value array `Sx` is
modified. -/
def incomplete_mat_mult_bsr (brA bcA bcB : ℕ)
    (Ap Aj : List ℕ) (Ax : List (Matrix (Fin brA) (Fin bcA) ℚ))
    (Bp Bj : List ℕ) (Bx : List (Matrix (Fin bcA) (Fin bcB) ℚ))
    (Sp Sj : List ℕ) (Sx : List (Matrix (Fin brA) (Fin bcB) ℚ))
    (n_brow : ℕ) : List (Matrix (Fin brA) (Fin bcB) ℚ) :=
  (List.range n_brow).foldl
    (fun L i =>
      immRow brA bcA bcB Ap Aj Ax Bp Bj Bx
        (bsrLookup Sj (Sp.getD i 0) (Sp.getD (i + 1) 0)) i L)
    Sx

/-- Total contribution accumulated by `incomplete_mat_mult_bsr` into a block
of row `i` with stored column `c`: the sum of the block products
`Ax[jj] * Bx[kk]` over all stored index pairs `(jj, kk)` with `jj` in row `i`
of `A` and `kk` in row `Aj[jj]` of `B` whose column `Bj[kk]` equals `c`. -/
def immContrib (brA bcA bcB : ℕ)
    (Ap Aj : List ℕ) (Ax : List (Matrix (Fin brA) (Fin bcA) ℚ))
    (Bp Bj : List ℕ) (Bx : List (Matrix (Fin bcA) (Fin bcB) ℚ))
    (i c : ℕ) : Matrix (Fin brA) (Fin bcB) ℚ :=
  ∑ jj ∈ Finset.Ico (Ap.getD i 0) (Ap.getD (i + 1) 0),
    ∑ kk ∈ Finset.Ico (Bp.getD (Aj.getD jj 0) 0)
        (Bp.getD (Aj.getD jj 0 + 1) 0),
      if Bj.getD kk 0 = c then Ax.getD jj 0 * Bx.getD kk 0 else 0

/-- Dense block entry `(i, k)` reconstructed from the stored entries of BSR
row `i` (duplicate stored columns summed). -/
def bsrDenseA (brA bcA : ℕ) (Ap Aj : List ℕ)
    (Ax : List (Matrix (Fin brA) (Fin bcA) ℚ)) (i k : ℕ) :
    Matrix (Fin brA) (Fin bcA) ℚ :=
  ∑ jj ∈ Finset.Ico (Ap.getD i 0) (Ap.getD (i + 1) 0),
    if Aj.getD jj 0 = k then Ax.getD jj 0 else 0

/-- Dense block entry `(k, c)` reconstructed from the stored entries of BSR
row `k` (duplicate stored columns summed). -/
def bsrDenseB (bcA bcB : ℕ) (Bp Bj : List ℕ)
    (Bx : List (Matrix (Fin bcA) (Fin bcB) ℚ)) (k c : ℕ) :
    Matrix (Fin bcA) (Fin bcB) ℚ :=
  ∑ kk ∈ Finset.Ico (Bp.getD k 0) (Bp.getD (k + 1) 0),
    if Bj.getD kk 0 = c then Bx.getD kk 0 else 0

/-- The all-zero column, used as the `getD` default for column lists. -/
def zfun : ℕ → ℝ := fun _ => 0

/-- Modelled from the spec: `linalg.h` is not under the available sources; its
`dot` is the conjugating inner product, which over the real embedding of a
length-`m` column is the sum of pointwise products (columns are stored padded
with zeros beyond `m`, so only positions below `m` contribute). -/
def rdot (m : ℕ) (u v : ℕ → ℝ) : ℝ := ∑ k ∈ Finset.range m, u k * v k

/-- Column norm accumulated by `fit_candidates_common` (lines 356-366 and
401-410). Modelled from the spec: `linalg.h` is not under the available
sources, and the spec prescribes the (Euclidean) residual norm of the column,
so each entry contributes its squared magnitude before the final
`std::sqrt`. -/
noncomputable def colnorm (m : ℕ) (u : ℕ → ℝ) : ℝ := Real.sqrt (rdot m u u)

/-- The modified Gram-Schmidt sweep of `fit_candidates_common`
(lines 370-398): the current column is orthogonalized against the already
processed columns in increasing order, each projection coefficient
`dot_prod` being recorded in order; returns the residual column and the list
of recorded coefficients. -/
noncomputable def mgsOrtho (m : ℕ) : List (ℕ → ℝ) → (ℕ → ℝ) → (ℕ → ℝ) × List ℝ
  | [], u => (u, [])
  | v :: rest, u =>
    let d := rdot m u v
    let r := mgsOrtho m rest (fun k => u k - d * v k)
    (r.1, d :: r.2)

/-- Recording of the orthogonalization coefficients of block column `bj` into
the aggregate's `R` block: entry `(bi, bj)` receives the `bi`-th recorded
`dot_prod` (line 397). -/
def writeCol (R : ℕ → ℕ → ℝ) (bj : ℕ) (ds : List ℝ) : ℕ → ℕ → ℝ :=
  fun a b => if b = bj ∧ a < ds.length then ds.getD a 0 else R a b

/-- Processing of one block column `bj` by `fit_candidates_common`
(lines 355-438): compute the pre-orthogonalization norm and the threshold
`tol * norm_j`, run the Gram-Schmidt sweep recording coefficients into `R`,
recompute the norm; if it exceeds the threshold the column is scaled by
`1/norm_j` and the norm goes to `R`'s diagonal, otherwise the column is
zeroed and the diagonal entry is set to 0 (without zeroing the recorded
entries above it). -/
noncomputable def fitStep (m : ℕ) (tol : ℝ)
    (s : List (ℕ → ℝ) × (ℕ → ℕ → ℝ)) (u0 : ℕ → ℝ) :
    List (ℕ → ℝ) × (ℕ → ℕ → ℝ) :=
  let bj := s.1.length
  let thr := tol * colnorm m u0
  let res := mgsOrtho m s.1 u0
  let post := colnorm m res.1
  if thr < post then
    (s.1 ++ [fun k => (1 / post) * res.1 k],
      fun a b => if a = bj ∧ b = bj then post else writeCol s.2 bj res.2 a b)
  else
    (s.1 ++ [fun _ => 0],
      fun a b => if a = bj ∧ b = bj then 0 else writeCol s.2 bj res.2 a b)

/-- Orthonormalization of one aggregate's block (the body of the outer loop
of `fit_candidates_common`, lines 347-439): the aggregate's initial columns
(copied from `B`) are processed in increasing column order starting from the
zero-filled `R` block. -/
noncomputable def fit_aggregate (m : ℕ) (tol : ℝ) (cols : List (ℕ → ℝ)) :
    List (ℕ → ℝ) × (ℕ → ℕ → ℝ) :=
  cols.foldl (fitStep m tol) ([], fun _ _ => 0)

/-- State of `fit_aggregate` after its first `bj` columns are processed. -/
noncomputable def fitPrefix (m : ℕ) (tol : ℝ) (cols : List (ℕ → ℝ))
    (bj : ℕ) : List (ℕ → ℝ) × (ℕ → ℕ → ℝ) :=
  (cols.take bj).foldl (fitStep m tol) ([], fun _ _ => 0)

/-- Column `bj` of the candidate block `B` restricted to the aggregate with
member fine block rows `ms` (the copy loop of `fit_candidates_common`,
lines 334-343): entry `idx` is row `idx % K1` of member `idx / K1`, the
column being zero beyond the aggregate block's `ms.length * K1` entries. -/
def aggCol (K1 : ℕ) (B : ℕ → ℕ → ℕ → ℝ) (ms : List ℕ) (bj : ℕ) : ℕ → ℝ :=
  fun idx => if idx < ms.length * K1 then B (ms.getD (idx / K1) 0) (idx % K1) bj
    else 0

/-- The `K2` initial columns of one aggregate's block. -/
def aggInit (K1 K2 : ℕ) (B : ℕ → ℕ → ℕ → ℝ) (ms : List ℕ) : List (ℕ → ℝ) :=
  (List.range K2).map (aggCol K1 B ms)

/-- Embedding of `fit_candidates_common` (lines 316-440): the BSR aggregation
pattern is given as the list of aggregates' member fine block rows
(`Ai[Ap[j] .. Ap[j+1])` for block column `j`, row pointers non-decreasing);
since each aggregate's slices of `Ax` and `R` are disjoint, the source's
outer loop is the independent per-aggregate map: aggregate `j` yields the
fitted local prolongator columns and its `K2 x K2` block of `R`. -/
noncomputable def fit_candidates_common (K1 K2 : ℕ) (B : ℕ → ℕ → ℕ → ℝ)
    (aggs : List (List ℕ)) (tol : ℝ) :
    List (List (ℕ → ℝ) × (ℕ → ℕ → ℝ)) :=
  aggs.map (fun ms => fit_aggregate (ms.length * K1) tol (aggInit K1 K2 B ms))

/-- Invariant of `fit_aggregate` after processing the columns of `inits`:
the processed column list has one entry per input column; distinct processed
columns are orthogonal; a processed column with nonzero `R` diagonal is a
unit vector and one with zero diagonal is the zero column; `R` is zero on
the strict lower triangle and on the not-yet-processed columns; and each
input column is reconstructed by `P*R` up to the drop tolerance. -/
structure FitInv (m : ℕ) (tol : ℝ) (inits : List (ℕ → ℝ))
    (s : List (ℕ → ℝ) × (ℕ → ℕ → ℝ)) : Prop where
  hlen : s.1.length = inits.length
  horth : ∀ a b, a < s.1.length → b < s.1.length → a ≠ b →
    rdot m (s.1.getD a zfun) (s.1.getD b zfun) = 0
  hunit : ∀ a, a < s.1.length →
    (s.2 a a ≠ 0 → rdot m (s.1.getD a zfun) (s.1.getD a zfun) = 1) ∧
    (s.2 a a = 0 → s.1.getD a zfun = zfun)
  hupper : ∀ a b, b < a → s.2 a b = 0
  hcols : ∀ a b, s.1.length ≤ b → s.2 a b = 0
  hrecon : ∀ b, b < s.1.length →
    colnorm m (fun k => inits.getD b zfun k -
        ∑ a ∈ Finset.range s.1.length, s.2 a b * s.1.getD a zfun k) ≤
      tol * colnorm m (inits.getD b zfun)

-- ===== theorems =====

theorem foldl_range_inv {S : Type} (body : S → ℕ → S) (P : ℕ → S → Prop) :
    ∀ (n : ℕ) (init : S), P 0 init →
      (∀ i s, i < n → P i s → P (i + 1) (body s i)) →
      P n ((List.range n).foldl body init) := by
  intro n
  induction n with
  | zero =>
    intro init h0 _
    simpa using h0
  | succ m ih =>
    intro init h0 hstep
    rw [List.range_succ, List.foldl_append, List.foldl_cons, List.foldl_nil]
    exact hstep m _ (Nat.lt_succ_self m)
      (ih init h0 (fun i s hi hp => hstep i s (Nat.lt_succ_of_lt hi) hp))

theorem strengthGo_length (theta : ℚ) (diag : ℕ → ℚ) (k : ℕ)
    (rows : List (List (ℕ × ℚ))) :
    (strengthGo theta diag k rows).length = rows.length := by
  induction rows generalizing k with
  | nil => rfl
  | cons r rest ih => simp [strengthGo, ih]

theorem strengthRow_eq_filter (i : ℕ) (eps : ℚ) (diag : ℕ → ℚ)
    (row : List (ℕ × ℚ)) :
    strengthRow i eps diag row =
      row.filter (fun p => p.1 = i ∨ eps * diag p.1 ≤ mynormsq p.2) := by
  induction row with
  | nil => rfl
  | cons p rest ih =>
    obtain ⟨j, v⟩ := p
    by_cases hj : j = i
    · simp [strengthRow, hj, List.filter, ih]
    · by_cases hc : eps * diag j ≤ mynormsq v
      · simp [strengthRow, hj, hc, List.filter, ih]
      · simp [strengthRow, hj, hc, List.filter, ih]

theorem strengthGo_getD (theta : ℚ) (diag : ℕ → ℚ) (k : ℕ)
    (rows : List (List (ℕ × ℚ))) (i : ℕ) (hi : i < rows.length) :
    (strengthGo theta diag k rows).getD i [] =
      strengthRow (k + i) (theta * theta * diag (k + i)) diag
        (rows.getD i []) := by
  induction rows generalizing k i with
  | nil => simp at hi
  | cons r rest ih =>
    cases i with
    | zero => simp [strengthGo]
    | succ n =>
      have hn : n < rest.length := by simpa using hi
      have h2 := ih (k + 1) n hn
      have harith : k + 1 + n = k + (n + 1) := by omega
      rw [harith] at h2
      simpa [strengthGo] using h2

theorem strength_getD_out (theta : ℚ) (rows : List (List (ℕ × ℚ))) (i : ℕ)
    (hi : rows.length ≤ i) :
    (symmetric_strength_of_connection theta rows).getD i [] = [] := by
  apply List.getD_eq_default
  rw [symmetric_strength_of_connection, strengthGo_length]
  exact hi

theorem strength_getD (theta : ℚ) (rows : List (List (ℕ × ℚ))) (i : ℕ)
    (hi : i < rows.length) :
    (symmetric_strength_of_connection theta rows).getD i [] =
      (rows.getD i []).filter
        (fun p => p.1 = i ∨
          theta * theta * diags rows i * diags rows p.1 ≤ mynormsq p.2) := by
  rw [symmetric_strength_of_connection, strengthGo_getD theta (diags rows) 0 rows i hi]
  rw [Nat.zero_add, strengthRow_eq_filter]

/-- C1: for a square CSR matrix with non-decreasing row pointers and
`theta ≥ 0`, row `i` of the strength matrix `S` produced by
`symmetric_strength_of_connection` contains every stored diagonal entry of
row `i` of `A`, contains a stored off-diagonal entry `(j, v)` of row `i` if
and only if `mynormsq v ≥ theta^2 * diags[i] * diags[j]` (where `diags[k]` is
the magnitude norm of the summed stored diagonal of row `k`), and contains
nothing else, every retained entry keeping its value from `A`. -/
theorem C1_strength_row_membership (theta : ℚ) (rows : List (List (ℕ × ℚ)))
    (htheta : 0 ≤ theta)
    (hsquare : ∀ r ∈ rows, ∀ p ∈ r, p.1 < rows.length) :
    ∀ i j v,
      (j, v) ∈ (symmetric_strength_of_connection theta rows).getD i [] ↔
        ((j, v) ∈ rows.getD i [] ∧
          (j = i ∨ theta ^ 2 * diags rows i * diags rows j ≤ mynormsq v)) := by
  intro i j v
  by_cases hi : i < rows.length
  · rw [strength_getD theta rows i hi]
    rw [List.mem_filter]
    have hp : theta * theta = theta ^ 2 := by ring
    simp [hp]
  · have hrow : rows.getD i [] = [] :=
      List.getD_eq_default _ _ (le_of_not_lt hi)
    rw [strength_getD_out theta rows i (le_of_not_lt hi), hrow]
    simp

theorem C1_strength_row_membership_witness :
    (0:ℚ) ≤ 1 ∧
    (∀ r ∈ [[((0:ℕ), (2:ℚ)), (1, 1)], [(0, 1), (1, 3)]], ∀ p ∈ r, p.1 < 2) ∧
    (∀ i j v,
      (j, v) ∈ (symmetric_strength_of_connection 1
          [[((0:ℕ), (2:ℚ)), (1, 1)], [(0, 1), (1, 3)]]).getD i [] ↔
        ((j, v) ∈ ([[((0:ℕ), (2:ℚ)), (1, 1)], [(0, 1), (1, 3)]]).getD i [] ∧
          (j = i ∨ (1:ℚ) ^ 2 * diags [[((0:ℕ), (2:ℚ)), (1, 1)], [(0, 1), (1, 3)]] i *
              diags [[((0:ℕ), (2:ℚ)), (1, 1)], [(0, 1), (1, 3)]] j ≤ mynormsq v))) :=
  ⟨by norm_num, by decide,
    C1_strength_row_membership 1 [[(0, 2), (1, 1)], [(0, 1), (1, 3)]]
      (by norm_num) (by decide)⟩

/-- C7 counterexample: for the legal 1x1 CSR input whose single row stores no
entry at all (row pointer `[0,0]`), the strength matrix's row 0 is empty, so
it does not structurally contain the diagonal position `(0,0)`: the code never
inserts a diagonal entry that `A` does not store. -/
theorem C7_counterexample :
    (symmetric_strength_of_connection 0 [[]]).getD 0 [] = ([] : List (ℕ × ℚ)) := by
  rfl

/-- C7 (amended): the strength matrix is a structural subset of `A`'s stored
entries, and row `i` of `S` contains the diagonal position `(i,i)` whenever
row `i` of `A` stores a diagonal entry (stored diagonal entries are retained
unconditionally); `S` has the same number of rows as `A`. -/
theorem C7_strength_structure (theta : ℚ) (rows : List (List (ℕ × ℚ))) :
    (symmetric_strength_of_connection theta rows).length = rows.length ∧
    (∀ i, ∀ p ∈ (symmetric_strength_of_connection theta rows).getD i [],
      p ∈ rows.getD i []) ∧
    (∀ i v, (i, v) ∈ rows.getD i [] →
      (i, v) ∈ (symmetric_strength_of_connection theta rows).getD i []) := by
  refine ⟨strengthGo_length theta (diags rows) 0 rows, ?_, ?_⟩
  · intro i p hp
    by_cases hi : i < rows.length
    · rw [strength_getD theta rows i hi] at hp
      exact List.mem_of_mem_filter hp
    · rw [strength_getD_out theta rows i (le_of_not_lt hi)] at hp
      simp at hp
  · intro i v hv
    have hi : i < rows.length := by
      by_contra hge
      rw [List.getD_eq_default _ _ (le_of_not_lt hge)] at hv
      simp at hv
    rw [strength_getD theta rows i hi, List.mem_filter]
    exact ⟨hv, by simp⟩

theorem rowPtrGo_sorted_ge (rows : List (List (ℕ × ℚ))) :
    ∀ acc : ℕ, (rowPtrGo acc rows).Sorted (· ≤ ·) ∧
      ∀ b ∈ rowPtrGo acc rows, acc ≤ b := by
  induction rows with
  | nil =>
    intro acc
    refine ⟨by simp [rowPtrGo], ?_⟩
    intro b hb
    simp [rowPtrGo] at hb
    omega
  | cons r rest ih =>
    intro acc
    obtain ⟨hs, hge⟩ := ih (acc + r.length)
    constructor
    · rw [rowPtrGo, List.sorted_cons]
      exact ⟨fun b hb => le_trans (Nat.le_add_right _ _) (hge b hb), hs⟩
    · intro b hb
      rw [rowPtrGo, List.mem_cons] at hb
      rcases hb with h | h
      · omega
      · exact le_trans (Nat.le_add_right _ _) (hge b h)

theorem rowPtrGo_getD_length (rows : List (List (ℕ × ℚ))) :
    ∀ acc : ℕ, (rowPtrGo acc rows).getD rows.length 0 =
      acc + (rows.map List.length).sum := by
  induction rows with
  | nil => intro acc; simp [rowPtrGo]
  | cons r rest ih =>
    intro acc
    have := ih (acc + r.length)
    simp only [rowPtrGo, List.length_cons, List.map_cons, List.sum_cons]
    rw [List.getD_cons_succ, this]
    omega

theorem strength_nnz_le (theta : ℚ) (rows : List (List (ℕ × ℚ))) :
    ((symmetric_strength_of_connection theta rows).map List.length).sum ≤
      (rows.map List.length).sum := by
  rw [symmetric_strength_of_connection]
  generalize diags rows = d
  generalize 0 = k
  induction rows generalizing k with
  | nil => simp [strengthGo]
  | cons r rest ih =>
    simp only [strengthGo, List.map_cons, List.sum_cons]
    have h1 : (strengthRow k (theta * theta * d k) d r).length ≤ r.length := by
      rw [strengthRow_eq_filter]
      exact List.length_filter_le _ _
    have h2 := ih (k + 1)
    omega

/-- C10: `symmetric_strength_of_connection` preserves within-row order: each
row of `S` is a subsequence of the corresponding row of `A` (entries kept
verbatim and in the same relative order), so a row of `A` whose column
indices are sorted yields a sorted row of `S`; moreover the reconstructed
output row pointer satisfies `Sp[0] = 0`, is non-decreasing, and its final
entry (the nnz of `S`) is at most that of `A`. -/
theorem C10_strength_row_order (theta : ℚ) (rows : List (List (ℕ × ℚ))) :
    (∀ i, ((symmetric_strength_of_connection theta rows).getD i []).Sublist
        (rows.getD i [])) ∧
    (∀ i, ((rows.getD i []).Pairwise (fun p q => p.1 ≤ q.1) →
      ((symmetric_strength_of_connection theta rows).getD i []).Pairwise
        (fun p q => p.1 ≤ q.1))) ∧
    (rowPtr (symmetric_strength_of_connection theta rows)).getD 0 0 = 0 ∧
    (rowPtr (symmetric_strength_of_connection theta rows)).Sorted (· ≤ ·) ∧
    (rowPtr (symmetric_strength_of_connection theta rows)).getD
        (symmetric_strength_of_connection theta rows).length 0 ≤
      (rowPtr rows).getD rows.length 0 := by
  have hsub : ∀ i, ((symmetric_strength_of_connection theta rows).getD i []).Sublist
      (rows.getD i []) := by
    intro i
    by_cases hi : i < rows.length
    · rw [strength_getD theta rows i hi]
      exact List.filter_sublist _
    · rw [strength_getD_out theta rows i (le_of_not_lt hi)]
      exact List.nil_sublist _
  refine ⟨hsub, fun i hp => List.Pairwise.sublist (hsub i) hp, ?_, ?_, ?_⟩
  · cases h : symmetric_strength_of_connection theta rows with
    | nil => simp [rowPtr, rowPtrGo]
    | cons a b => simp [rowPtr, rowPtrGo]
  · exact (rowPtrGo_sorted_ge (symmetric_strength_of_connection theta rows) 0).1
  · rw [rowPtr, rowPtr, rowPtrGo_getD_length, rowPtrGo_getD_length]
    simpa using strength_nnz_le theta rows

theorem pass1body_skip_marked (n : ℕ) (rows : List (List ℕ)) (s : AggState)
    (i : ℕ) (h : s.x i ≠ 0) : pass1body n rows s i = s := by
  simp [pass1body, h]

theorem pass1body_skip_agg (n : ℕ) (rows : List (List ℕ)) (s : AggState)
    (i : ℕ) (h0 : s.x i = 0)
    (h : ∃ j ∈ rows.getD i [], j ≠ i ∧ s.x j ≠ 0) :
    pass1body n rows s i = s := by
  simp only [pass1body]
  rw [if_neg (by simp [h0])]
  rw [if_pos]
  simp only [List.any_eq_true, Bool.and_eq_true, decide_eq_true_eq]
  obtain ⟨j, hj, hne, hx⟩ := h
  exact ⟨j, hj, hne, hx⟩

theorem pass1body_isolated (n : ℕ) (rows : List (List ℕ)) (s : AggState)
    (i : ℕ) (h0 : s.x i = 0) (hiso : isolatedRow rows i) :
    pass1body n rows s i = { s with x := Function.update s.x i (-(n : ℤ)) } := by
  simp only [pass1body]
  rw [if_neg (by simp [h0])]
  rw [if_neg, if_pos]
  · simp only [List.all_eq_true, decide_eq_true_eq]
    exact hiso
  · simp only [List.any_eq_true, Bool.and_eq_true, decide_eq_true_eq]
    rintro ⟨j, hj, hne, hx⟩
    exact hne (hiso j hj)

theorem pass1body_new_agg (n : ℕ) (rows : List (List ℕ)) (s : AggState)
    (i : ℕ) (h0 : s.x i = 0)
    (hfree : ∀ j ∈ rows.getD i [], j ≠ i → s.x j = 0)
    (hnb : ¬isolatedRow rows i) :
    pass1body n rows s i =
      ⟨fun k => if k = i ∨ k ∈ rows.getD i [] then (s.next : ℤ) else s.x k,
        Function.update s.y (s.next - 1) i, s.next + 1⟩ := by
  simp only [pass1body]
  rw [if_neg (by simp [h0])]
  rw [if_neg, if_neg]
  · simp only [List.all_eq_true, decide_eq_true_eq]
    exact hnb
  · simp only [List.any_eq_true, Bool.and_eq_true, decide_eq_true_eq]
    rintro ⟨j, hj, hne, hx⟩
    exact hx (hfree j hj hne)

theorem pass1Inv_init (rows : List (List ℕ)) :
    Pass1Inv rows 0 ⟨fun _ => 0, fun _ => 0, 1⟩ := by
  refine ⟨le_refl 1, fun k => Or.inl rfl, fun k _ => rfl, by simp, ?_, ?_, ?_, ?_⟩
  · intro k _
    exact ⟨fun hk => absurd hk (Nat.not_lt_zero k), fun _ => rfl⟩
  · intro k _
    exact le_refl 0
  · intro a ha1 ha2
    have h2 : a < 1 := ha2
    omega
  · intro k hk
    exact absurd hk (Nat.not_lt_zero k)

theorem pass1_step (rows : List (List ℕ)) (hwf : wfGraph rows)
    (hsym : symmGraph rows) (i : ℕ) (hi : i < rows.length) (s : AggState)
    (h : Pass1Inv rows i s) :
    Pass1Inv rows (i + 1) (pass1body rows.length rows s i) := by
  have hn1 : 1 ≤ rows.length := by omega
  by_cases h0 : s.x i = 0
  · by_cases hagg : ∃ j ∈ rows.getD i [], j ≠ i ∧ s.x j ≠ 0
    · rw [pass1body_skip_agg _ _ _ _ h0 hagg]
      refine ⟨h.hnext, h.hrange, h.hout, h.hcount, ?_, h.hniso, h.hroot, ?_⟩
      · intro k hk
        refine ⟨?_, fun hge => (h.hiso k hk).2 (by omega)⟩
        intro hlt
        rcases Nat.lt_succ_iff_lt_or_eq.mp hlt with hc | hc
        · exact (h.hiso k hk).1 hc
        · subst hc
          obtain ⟨j, hj, hne, _⟩ := hagg
          exact absurd (hk j hj) hne
      · intro k hk hxk
        rcases Nat.lt_succ_iff_lt_or_eq.mp hk with hc | hc
        · exact h.hzero k hc hxk
        · subst hc
          obtain ⟨j, hj, hne, hx⟩ := hagg
          refine ⟨j, hj, hne, ?_⟩
          rcases h.hrange j with hz | hneg | hpos
          · exact absurd hz hx
          · exfalso
            have hjlt : j < rows.length := hwf k hi j hj
            have hjiso : isolatedRow rows j := by
              by_contra hni
              have hge := h.hniso j hni
              rw [hneg] at hge
              omega
            have hmem : k ∈ rows.getD j [] :=
              hsym k hi j hj (fun he => hne (he.symm))
            exact hne (hjiso k hmem).symm
          · omega
    · have hfree : ∀ j ∈ rows.getD i [], j ≠ i → s.x j = 0 := by
        intro j hj hne
        by_contra hx
        exact hagg ⟨j, hj, hne, hx⟩
      by_cases hisoI : isolatedRow rows i
      · rw [pass1body_isolated _ _ _ _ h0 hisoI]
        refine ⟨h.hnext, ?_, ?_, ?_, ?_, ?_, ?_, ?_⟩
        · intro k
          rcases eq_or_ne k i with rfl | hk
          · simp only [Function.update_apply, if_pos rfl]
            exact Or.inr (Or.inl rfl)
          · simp only [Function.update_apply, if_neg hk]
            exact h.hrange k
        · intro k hk
          have hki : k ≠ i := by omega
          simp only [Function.update_apply, if_neg hki]
          exact h.hout k hk
        · have hset : ((Finset.range rows.length).filter
              (fun k => 0 < Function.update s.x i (-(rows.length : ℤ)) k)) =
              ((Finset.range rows.length).filter (fun k => 0 < s.x k)) := by
            apply Finset.filter_congr
            intro k _
            rcases eq_or_ne k i with rfl | hk
            · simp only [Function.update_apply, if_pos rfl, h0]
              constructor
              · intro hc; omega
              · intro hc; omega
            · simp only [Function.update_apply, if_neg hk]
          rw [hset]
          exact h.hcount
        · intro k hk
          constructor
          · intro hlt
            rcases Nat.lt_succ_iff_lt_or_eq.mp hlt with hc | hc
            · have hki : k ≠ i := by omega
              simp only [Function.update_apply, if_neg hki]
              exact (h.hiso k hk).1 hc
            · subst hc
              simp [Function.update_apply]
          · intro hge
            have hki : k ≠ i := by omega
            simp only [Function.update_apply, if_neg hki]
            exact (h.hiso k hk).2 (by omega)
        · intro k hni
          have hki : k ≠ i := fun he => hni (he ▸ hisoI)
          simp only [Function.update_apply, if_neg hki]
          exact h.hniso k hni
        · intro a ha1 ha2
          obtain ⟨hy1, hy2⟩ := h.hroot a ha1 ha2
          have hne : s.y (a - 1) ≠ i := by
            intro he
            rw [he, h0] at hy2
            omega
          refine ⟨hy1, ?_⟩
          simp only [Function.update_apply, if_neg hne]
          exact hy2
        · intro k hk hxk
          rcases Nat.lt_succ_iff_lt_or_eq.mp hk with hc | hc
          · have hki : k ≠ i := by omega
            simp only [Function.update_apply, if_neg hki] at hxk
            obtain ⟨j, hj, hne, hpos⟩ := h.hzero k hc hxk
            refine ⟨j, hj, hne, ?_⟩
            have hji : j ≠ i := by
              intro he
              rw [he, h0] at hpos
              omega
            simp only [Function.update_apply, if_neg hji]
            exact hpos
          · subst hc
            simp [Function.update_apply] at hxk
            rw [hxk] at hi
            simp at hi
      · rw [pass1body_new_agg _ _ _ _ h0 hfree hisoI]
        obtain ⟨j0, hj0, hj0ne⟩ : ∃ j ∈ rows.getD i [], j ≠ i := by
          rw [isolatedRow] at hisoI
          push_neg at hisoI
          exact hisoI
        have htarget : ∀ k, (k = i ∨ k ∈ rows.getD i []) → s.x k = 0 := by
          intro k hk
          rcases hk with rfl | hk
          · exact h0
          · rcases eq_or_ne k i with rfl | hne
            · exact h0
            · exact hfree k hk hne
        refine ⟨le_trans h.hnext (Nat.le_succ _), ?_, ?_, ?_, ?_, ?_, ?_, ?_⟩
        · intro k
          dsimp only
          by_cases hk : k = i ∨ k ∈ rows.getD i []
          · rw [if_pos hk]
            refine Or.inr (Or.inr ⟨by exact_mod_cast h.hnext, ?_⟩)
            push_cast
            omega
          · rw [if_neg hk]
            rcases h.hrange k with hz | hneg | hpos
            · exact Or.inl hz
            · exact Or.inr (Or.inl hneg)
            · refine Or.inr (Or.inr ⟨hpos.1, ?_⟩)
              have := hpos.2
              push_cast
              push_cast at this
              omega
        · intro k hk
          dsimp only
          have hcond : ¬(k = i ∨ k ∈ rows.getD i []) := by
            rintro (rfl | hmem)
            · omega
            · have := hwf i hi k hmem
              omega
          rw [if_neg hcond]
          exact h.hout k hk
        · dsimp only
          have hj0lt : j0 < rows.length := hwf i hi j0 hj0
          have hsub : ((Finset.range rows.length).filter (fun k => 0 < s.x k))
              ∪ {i, j0} ⊆ (Finset.range rows.length).filter
                (fun k => 0 < if k = i ∨ k ∈ rows.getD i [] then
                  (s.next : ℤ) else s.x k) := by
            intro k hk
            rcases Finset.mem_union.mp hk with hk | hk
            · obtain ⟨hkr, hkpos⟩ := Finset.mem_filter.mp hk
              refine Finset.mem_filter.mpr ⟨hkr, ?_⟩
              by_cases hc : k = i ∨ k ∈ rows.getD i []
              · rw [if_pos hc]
                have := h.hnext
                push_cast
                omega
              · rw [if_neg hc]
                exact hkpos
            · have hki : k = i ∨ k = j0 := by
                simpa using hk
              have hkr : k ∈ Finset.range rows.length := by
                rcases hki with rfl | rfl
                · exact Finset.mem_range.mpr hi
                · exact Finset.mem_range.mpr hj0lt
              refine Finset.mem_filter.mpr ⟨hkr, ?_⟩
              have hc : k = i ∨ k ∈ rows.getD i [] := by
                rcases hki with rfl | rfl
                · exact Or.inl rfl
                · exact Or.inr hj0
              rw [if_pos hc]
              have := h.hnext
              push_cast
              omega
          have hdisj : Disjoint
              ((Finset.range rows.length).filter (fun k => 0 < s.x k))
              ({i, j0} : Finset ℕ) := by
            rw [Finset.disjoint_right]
            intro k hk hmem
            obtain ⟨_, hkpos⟩ := Finset.mem_filter.mp hmem
            have hki : k = i ∨ k = j0 := by simpa using hk
            have : s.x k = 0 := by
              rcases hki with rfl | rfl
              · exact h0
              · exact hfree k hj0 hj0ne
            omega
          have hcard2 : ({i, j0} : Finset ℕ).card = 2 :=
            Finset.card_pair (fun he => hj0ne he.symm)
          have hcu := Finset.card_union_of_disjoint hdisj
          have hle := Finset.card_le_card hsub
          rw [hcu, hcard2] at hle
          have := h.hcount
          omega
        · intro k hk
          have hknotrow : ¬(k = i ∨ k ∈ rows.getD i []) := by
            rintro (rfl | hmem)
            · exact hisoI hk
            · have hkne : k ≠ i := by
                intro he
                exact hisoI (he ▸ hk)
              have hklt : k < rows.length := hwf i hi k hmem
              have hmem2 : i ∈ rows.getD k [] :=
                hsym i hi k hmem (fun he => hkne he.symm)
              exact hkne ((hk i hmem2).symm)
          constructor
          · intro hlt
            rcases Nat.lt_succ_iff_lt_or_eq.mp hlt with hc | hc
            · dsimp only
              rw [if_neg hknotrow]
              exact (h.hiso k hk).1 hc
            · exact absurd (Or.inl hc) hknotrow
          · intro hge
            dsimp only
            rw [if_neg hknotrow]
            exact (h.hiso k hk).2 (by omega)
        · intro k hni
          dsimp only
          by_cases hc : k = i ∨ k ∈ rows.getD i []
          · rw [if_pos hc]
            positivity
          · rw [if_neg hc]
            exact h.hniso k hni
        · intro a ha1 ha2
          dsimp only at ha2 ⊢
          rcases Nat.lt_succ_iff_lt_or_eq.mp ha2 with hc | hc
          · obtain ⟨hy1, hy2⟩ := h.hroot a ha1 hc
            have hidx : a - 1 ≠ s.next - 1 := by omega
            rw [Function.update_apply, if_neg hidx]
            refine ⟨hy1, ?_⟩
            have hcond : ¬(s.y (a - 1) = i ∨ s.y (a - 1) ∈ rows.getD i []) := by
              intro hcc
              have := htarget _ hcc
              rw [this] at hy2
              omega
            rw [if_neg hcond]
            exact hy2
          · subst hc
            rw [Function.update_apply, if_pos rfl]
            refine ⟨hi, ?_⟩
            rw [if_pos (Or.inl rfl)]
        · intro k hk hxk
          dsimp only at hxk
          have hknot : ¬(k = i ∨ k ∈ rows.getD i []) := by
            intro hc
            rw [if_pos hc] at hxk
            have := h.hnext
            omega
          rw [if_neg hknot] at hxk
          rcases Nat.lt_succ_iff_lt_or_eq.mp hk with hc | hc
          · obtain ⟨j, hj, hne, hpos⟩ := h.hzero k hc hxk
            refine ⟨j, hj, hne, ?_⟩
            dsimp only
            by_cases hcj : j = i ∨ j ∈ rows.getD i []
            · rw [if_pos hcj]
              have := h.hnext
              push_cast
              omega
            · rw [if_neg hcj]
              exact hpos
          · subst hc
            exact absurd (Or.inl rfl) hknot
  · rw [pass1body_skip_marked _ _ _ _ h0]
    refine ⟨h.hnext, h.hrange, h.hout, h.hcount, ?_, h.hniso, h.hroot, ?_⟩
    · intro k hk
      refine ⟨?_, fun hge => (h.hiso k hk).2 (by omega)⟩
      intro hlt
      rcases Nat.lt_succ_iff_lt_or_eq.mp hlt with hc | hc
      · exact (h.hiso k hk).1 hc
      · subst hc
        exact absurd ((h.hiso k hk).2 le_rfl) h0
    · intro k hk hxk
      rcases Nat.lt_succ_iff_lt_or_eq.mp hk with hc | hc
      · exact h.hzero k hc hxk
      · subst hc
        exact absurd hxk h0

theorem pass2body_skip (rows : List (List ℕ)) (s : AggState) (i : ℕ)
    (h : s.x i ≠ 0) : pass2body rows s i = s := by
  simp [pass2body, h]

theorem pass2body_hit (rows : List (List ℕ)) (s : AggState) (i : ℕ)
    (h0 : s.x i = 0) (j : ℕ)
    (hf : (rows.getD i []).find? (fun j => decide (0 < s.x j)) = some j) :
    pass2body rows s i = { s with x := Function.update s.x i (-(s.x j)) } := by
  simp only [pass2body]
  rw [if_neg (by simp [h0])]
  rw [hf]

theorem pass2Inv_init (s1 : AggState) : Pass2Inv s1 0 s1 :=
  ⟨rfl, rfl, fun _ _ => rfl, fun k hk => Or.inl ⟨hk, Nat.zero_le k⟩⟩

theorem pass2_step (rows : List (List ℕ)) (s1 : AggState)
    (inv1 : Pass1Inv rows rows.length s1) (i : ℕ) (hi : i < rows.length)
    (s : AggState) (h : Pass2Inv s1 i s) :
    Pass2Inv s1 (i + 1) (pass2body rows s i) := by
  by_cases h0 : s.x i = 0
  · have h1i : s1.x i = 0 := by
      by_contra hne
      have hk := h.hkeep i hne
      rw [hk] at h0
      exact hne h0
    cases hf : (rows.getD i []).find? (fun j => decide (0 < s.x j)) with
    | none =>
      exfalso
      obtain ⟨j, hj, hne, hpos⟩ := inv1.hzero i hi h1i
      have hsj : s.x j = s1.x j := h.hkeep j (by omega)
      have hspos : 0 < s.x j := by omega
      have hnone := List.find?_eq_none.mp hf j hj
      simp at hnone
      omega
    | some j =>
      rw [pass2body_hit rows s i h0 j hf]
      have hjpos : 0 < s.x j := by
        have hp := List.find?_some hf
        simpa using hp
      have h1j : s1.x j ≠ 0 := by
        intro hz
        rcases h.hfill j hz with ⟨hz2, _⟩ | ⟨a, ha1, _, hval⟩
        · omega
        · omega
      have hsj : s.x j = s1.x j := h.hkeep j h1j
      have hjval : 1 ≤ s1.x j ∧ s1.x j < (s1.next : ℤ) := by
        rcases inv1.hrange j with hz | hneg | hval
        · exact absurd hz h1j
        · exfalso
          have hn0 : i < rows.length := hi
          omega
        · exact hval
      refine ⟨h.hnext, h.hy, ?_, ?_⟩
      · intro k hk
        have hki : k ≠ i := fun he => (he ▸ hk) h1i
        simp only [Function.update_apply, if_neg hki]
        exact h.hkeep k hk
      · intro k hk
        rcases eq_or_ne k i with rfl | hki
        · obtain ⟨hj1, hj2⟩ := hjval
          refine Or.inr ⟨(s1.x j).toNat, by omega, by omega, ?_⟩
          simp [Function.update_apply]
          omega
        · simp only [Function.update_apply, if_neg hki]
          rcases h.hfill k hk with ⟨hz, hge⟩ | hatt
          · exact Or.inl ⟨hz, by omega⟩
          · exact Or.inr hatt
  · rw [pass2body_skip rows s i h0]
    refine ⟨h.hnext, h.hy, h.hkeep, ?_⟩
    intro k hk
    rcases h.hfill k hk with ⟨hz, hge⟩ | hatt
    · have hki : k ≠ i := fun he => h0 (he ▸ hz)
      exact Or.inl ⟨hz, by omega⟩
    · exact Or.inr hatt

theorem pass3body_convert (n : ℕ) (rows : List (List ℕ)) (s : AggState)
    (i : ℕ) (h : s.x i ≠ 0) :
    pass3body n rows s i =
      { s with x := Function.update s.x i (pass3convert (n : ℤ) (s.x i)) } := by
  simp only [pass3body, pass3convert]
  rw [if_pos h]
  by_cases hpos : 0 < s.x i
  · rw [if_pos hpos, if_pos hpos]
  · rw [if_neg hpos, if_neg hpos]
    by_cases hneg : s.x i = -(n : ℤ)
    · rw [if_pos hneg, if_pos hneg]
    · rw [if_neg hneg, if_neg hneg]

theorem pass3_step (n : ℕ) (rows : List (List ℕ)) (s2 : AggState)
    (hnz : ∀ k, k < n → s2.x k ≠ 0) (i : ℕ) (hi : i < n) (s : AggState)
    (h : Pass3Inv n s2 i s) :
    Pass3Inv n s2 (i + 1) (pass3body n rows s i) := by
  have hsi : s.x i = s2.x i := h.htodo i le_rfl
  have hne : s.x i ≠ 0 := by
    rw [hsi]
    exact hnz i hi
  rw [pass3body_convert n rows s i hne]
  refine ⟨h.hnext, h.hy, ?_, ?_⟩
  · intro k hk
    rcases Nat.lt_succ_iff_lt_or_eq.mp hk with hc | hc
    · have hki : k ≠ i := by omega
      simp only [Function.update_apply, if_neg hki]
      exact h.hdone k hc
    · subst hc
      simp [Function.update_apply, hsi]
  · intro k hk
    have hki : k ≠ i := by omega
    simp only [Function.update_apply, if_neg hki]
    exact h.htodo k (by omega)

theorem standard_aggregation_master (rows : List (List ℕ)) (hwf : wfGraph rows)
    (hsym : symmGraph rows) :
    ∃ s1 : AggState, Pass1Inv rows rows.length s1 ∧
      (standard_aggregation rows).next = s1.next - 1 ∧
      (standard_aggregation rows).y = s1.y ∧
      (∀ k, k < rows.length →
        (s1.x k ≠ 0 →
          (standard_aggregation rows).x k =
            pass3convert (rows.length : ℤ) (s1.x k)) ∧
        (s1.x k = 0 → ∃ a : ℕ, 1 ≤ a ∧ a < s1.next ∧
          (standard_aggregation rows).x k =
            pass3convert (rows.length : ℤ) (-(a : ℤ)))) := by
  have inv1 : Pass1Inv rows rows.length
      ((List.range rows.length).foldl (pass1body rows.length rows)
        ⟨fun _ => 0, fun _ => 0, 1⟩) :=
    foldl_range_inv _ _ rows.length _ (pass1Inv_init rows)
      (fun i s hi hp => pass1_step rows hwf hsym i hi s hp)
  set s1 := (List.range rows.length).foldl (pass1body rows.length rows)
    ⟨fun _ => 0, fun _ => 0, 1⟩ with hs1
  have inv2 : Pass2Inv s1 rows.length
      ((List.range rows.length).foldl (pass2body rows) s1) :=
    foldl_range_inv _ _ rows.length _ (pass2Inv_init s1)
      (fun i s hi hp => pass2_step rows s1 inv1 i hi s hp)
  set s2 := (List.range rows.length).foldl (pass2body rows) s1 with hs2
  set s2d : AggState := { s2 with next := s2.next - 1 } with hs2d
  have hnz : ∀ k, k < rows.length → s2d.x k ≠ 0 := by
    intro k hk
    show s2.x k ≠ 0
    by_cases h1k : s1.x k = 0
    · rcases inv2.hfill k h1k with ⟨_, hge⟩ | ⟨a, ha1, _, hval⟩
      · omega
      · rw [hval]
        intro hcc
        have : (a : ℤ) = 0 := by omega
        omega
    · rw [inv2.hkeep k h1k]
      exact h1k
  have hr : standard_aggregation rows =
      (List.range rows.length).foldl (pass3body rows.length rows) s2d := rfl
  have inv3 : Pass3Inv rows.length s2d rows.length (standard_aggregation rows) := by
    rw [hr]
    exact foldl_range_inv _ _ rows.length _
      ⟨rfl, rfl, fun k hk => absurd hk (Nat.not_lt_zero k), fun _ _ => rfl⟩
      (fun i s hi hp => pass3_step rows.length rows s2d hnz i hi s hp)
  refine ⟨s1, inv1, ?_, ?_, ?_⟩
  · rw [inv3.hnext]
    show s2.next - 1 = s1.next - 1
    rw [inv2.hnext]
  · rw [inv3.hy]
    show s2.y = s1.y
    rw [inv2.hy]
  · intro k hk
    have hdone := inv3.hdone k hk
    constructor
    · intro h1k
      rw [hdone]
      show pass3convert (rows.length : ℤ) (s2.x k) = _
      rw [inv2.hkeep k h1k]
    · intro h1k
      rcases inv2.hfill k h1k with ⟨_, hge⟩ | ⟨a, ha1, ha2, hval⟩
      · omega
      · refine ⟨a, ha1, ha2, ?_⟩
        rw [hdone]
        show pass3convert (rows.length : ℤ) (s2.x k) = _
        rw [hval]

/-- C4 counterexample: for the non-symmetric graph with rows `[[1], []]`
(non-decreasing row pointers `[0,1,1]`), node 1 stores no off-diagonal entry,
yet `standard_aggregation` leaves it with aggregate id 0 rather than `-1`:
the "isolated nodes get `x[i] = -1`" part of the claim fails once the
documented symmetry precondition is dropped. -/
theorem C4_counterexample :
    isolatedRow [[1], []] 1 ∧
      (standard_aggregation [[1], []]).x 1 = 0 := by
  constructor
  · decide
  · decide

/-- C4 (amended): for every graph with non-decreasing row pointers whose
column indices are in range and whose off-diagonal structure is symmetric
(the documented precondition of `standard_aggregation`), the routine
terminates with every node satisfying `x[i] ≥ -1`; the non-negative values
appearing in `x` are exactly the ids `0 .. count-1` where `count` is the
returned aggregate count; and `x[i] = -1` exactly for the isolated nodes
(rows with no stored off-diagonal entry). -/
theorem C4_standard_aggregation_coverage (rows : List (List ℕ))
    (hwf : wfGraph rows) (hsym : symmGraph rows) :
    (∀ k, k < rows.length → -1 ≤ (standard_aggregation rows).x k) ∧
    (∀ v : ℤ, 0 ≤ v →
      ((∃ k, k < rows.length ∧ (standard_aggregation rows).x k = v) ↔
        v < ((standard_aggregation rows).next : ℤ))) ∧
    (∀ k, k < rows.length →
      ((standard_aggregation rows).x k = -1 ↔ isolatedRow rows k)) := by
  obtain ⟨s1, inv1, hnext, hy, hx⟩ := standard_aggregation_master rows hwf hsym
  have hM : ((Finset.range rows.length).filter (fun k => 0 < s1.x k)).card ≤
      rows.length := le_trans (Finset.card_filter_le _ _) (by simp)
  have hMn : 2 * (s1.next - 1) ≤ rows.length := le_trans inv1.hcount hM
  have hval : ∀ k, k < rows.length →
      (isolatedRow rows k ∧ (standard_aggregation rows).x k = -1) ∨
      (¬isolatedRow rows k ∧ 0 ≤ (standard_aggregation rows).x k ∧
        (standard_aggregation rows).x k < ((standard_aggregation rows).next : ℤ)) := by
    intro k hk
    have hn1 : 1 ≤ rows.length := by omega
    by_cases hiso : isolatedRow rows k
    · left
      refine ⟨hiso, ?_⟩
      have h1k : s1.x k = -(rows.length : ℤ) := (inv1.hiso k hiso).1 hk
      have hne : s1.x k ≠ 0 := by rw [h1k]; intro hc; omega
      rw [(hx k hk).1 hne, h1k, pass3convert]
      rw [if_neg (by omega), if_pos rfl]
    · right
      refine ⟨hiso, ?_⟩
      have hge := inv1.hniso k hiso
      by_cases h1k : s1.x k = 0
      · obtain ⟨a, ha1, ha2, hv⟩ := (hx k hk).2 h1k
        rw [hv, pass3convert]
        have hanen : (a : ℤ) ≠ (rows.length : ℤ) := by omega
        rw [if_neg (by omega), if_neg (by omega)]
        rw [hnext]
        constructor
        · omega
        · push_cast
          omega
      · have hpos : 1 ≤ s1.x k ∧ s1.x k < (s1.next : ℤ) := by
          rcases inv1.hrange k with hz | hneg | hp
          · exact absurd hz h1k
          · exfalso; rw [hneg] at hge; omega
          · exact hp
        rw [(hx k hk).1 h1k, pass3convert, if_pos (by omega)]
        rw [hnext]
        constructor
        · omega
        · push_cast
          omega
  refine ⟨?_, ?_, ?_⟩
  · intro k hk
    rcases hval k hk with ⟨_, hv⟩ | ⟨_, hv, _⟩
    · omega
    · omega
  · intro v hv
    constructor
    · rintro ⟨k, hk, hkv⟩
      rcases hval k hk with ⟨_, hv2⟩ | ⟨_, _, hv2⟩
      · omega
      · omega
    · intro hlt
      have hvM : v.toNat + 1 < s1.next := by
        rw [hnext] at hlt
        omega
      obtain ⟨hylt, hyval⟩ := inv1.hroot (v.toNat + 1) (by omega) hvM
      refine ⟨s1.y (v.toNat + 1 - 1), hylt, ?_⟩
      have hne : s1.x (s1.y (v.toNat + 1 - 1)) ≠ 0 := by
        rw [hyval]
        intro hc
        omega
      rw [(hx _ hylt).1 hne, hyval, pass3convert, if_pos (by omega)]
      push_cast
      omega
  · intro k hk
    rcases hval k hk with ⟨hiso, hv⟩ | ⟨hiso, hv, _⟩
    · constructor
      · intro _; exact hiso
      · intro _; exact hv
    · constructor
      · intro hc; omega
      · intro hc; exact absurd hc hiso

theorem C4_standard_aggregation_coverage_witness :
    wfGraph [[1], [0]] ∧ symmGraph [[1], [0]] ∧
    ((∀ k, k < 2 → -1 ≤ (standard_aggregation [[1], [0]]).x k) ∧
    (∀ v : ℤ, 0 ≤ v →
      ((∃ k, k < 2 ∧ (standard_aggregation [[1], [0]]).x k = v) ↔
        v < ((standard_aggregation [[1], [0]]).next : ℤ))) ∧
    (∀ k, k < 2 →
      ((standard_aggregation [[1], [0]]).x k = -1 ↔ isolatedRow [[1], [0]] k))) :=
  ⟨by decide, by decide,
    C4_standard_aggregation_coverage [[1], [0]] (by decide) (by decide)⟩

/-- C9 counterexample: for the non-symmetric graph with rows
`[[], [0,2], [0,1]]`, `standard_aggregation` returns 2 aggregates but the
recorded root `y[0]` (node 1, seeded in pass 3 with id 0) ends with
`x[y[0]] = 1`, because the pass-3 aggregate seeded at node 2 re-absorbs node 1
whose freshly assigned id 0 is indistinguishable from the unmarked state. -/
theorem C9_counterexample :
    (standard_aggregation [[], [0, 2], [0, 1]]).next = 2 ∧
      (standard_aggregation [[], [0, 2], [0, 1]]).x
        ((standard_aggregation [[], [0, 2], [0, 1]]).y 0) = 1 := by
  constructor
  · decide
  · decide

/-- C9 (amended): for every in-range graph with symmetric off-diagonal
structure (the documented precondition of `standard_aggregation`), every
recorded root is a member of the aggregate it represents: for `k < count`,
`y[k]` is a valid node and `x[y[k]] = k`; the pass-1 roots keep their own
aggregate's final 0-based id through all renormalization passes. -/
theorem C9_standard_aggregation_roots (rows : List (List ℕ))
    (hwf : wfGraph rows) (hsym : symmGraph rows) :
    ∀ c, c < (standard_aggregation rows).next →
      (standard_aggregation rows).y c < rows.length ∧
      (standard_aggregation rows).x ((standard_aggregation rows).y c) =
        (c : ℤ) := by
  obtain ⟨s1, inv1, hnext, hy, hx⟩ := standard_aggregation_master rows hwf hsym
  intro c hc
  have hcM : c + 1 < s1.next := by
    rw [hnext] at hc
    omega
  obtain ⟨hylt, hyval⟩ := inv1.hroot (c + 1) (by omega) hcM
  have hc1 : c + 1 - 1 = c := by omega
  rw [hc1] at hylt hyval
  rw [hy]
  refine ⟨hylt, ?_⟩
  have hne : s1.x (s1.y c) ≠ 0 := by
    rw [hyval]
    intro hcc
    omega
  rw [(hx _ hylt).1 hne, hyval, pass3convert, if_pos (by omega)]
  push_cast
  omega

theorem C9_standard_aggregation_roots_witness :
    wfGraph [[1], [0]] ∧ symmGraph [[1], [0]] ∧
    (∀ c, c < (standard_aggregation [[1], [0]]).next →
      (standard_aggregation [[1], [0]]).y c < 2 ∧
      (standard_aggregation [[1], [0]]).x
        ((standard_aggregation [[1], [0]]).y c) = (c : ℤ)) :=
  ⟨by decide, by decide,
    C9_standard_aggregation_roots [[1], [0]] (by decide) (by decide)⟩

/-- C6: evaluation of `naive_aggregation` at the failing input of a single
node with an empty row (row pointers `[0,0]`): the node is marked with the
1-based id `next_aggregate = 1` and the routine returns
`next_aggregate - 1 = 1`, so `x[0] = returnedCount`, violating the claimed
(and self-documented, "returns max(x[:]) + 1") 0-based contract
`0 <= x[i] < returnedCount`: the routine never renormalizes its 1-based
marks. -/
theorem C6_naive_aggregation_one_based :
    (naive_aggregation [[]]).x 0 = 1 ∧
    (naive_aggregation [[]]).next - 1 = 1 ∧
    ¬((naive_aggregation [[]]).x 0 <
        (((naive_aggregation [[]]).next - 1 : ℕ) : ℤ)) := by
  refine ⟨by decide, by decide, by decide⟩

theorem list_getD_set_self {α : Type} (l : List α) (p : ℕ) (a d : α)
    (h : p < l.length) : (l.set p a).getD p d = a := by
  simp [List.getD_eq_getElem?_getD, List.getElem?_set_self, h]

theorem list_getD_set_ne {α : Type} (l : List α) (p q : ℕ) (a d : α)
    (h : p ≠ q) : (l.set p a).getD q d = l.getD q d := by
  simp [List.getD_eq_getElem?_getD, List.getElem?_set_ne h]

theorem satisfy_inner_fold (RpB CpB NullDim : ℕ)
    (x : ℕ → Matrix (Fin CpB) (Fin NullDim) ℚ)
    (y : ℕ → Matrix (Fin RpB) (Fin NullDim) ℚ)
    (z : ℕ → Matrix (Fin NullDim) (Fin NullDim) ℚ)
    (Sj : List ℕ) (i : ℕ) :
    ∀ (K : List ℕ), K.Nodup →
      ∀ (L : List (Matrix (Fin RpB) (Fin CpB) ℚ)), (∀ p ∈ K, p < L.length) →
      ((K.foldl (satisfyStep RpB CpB NullDim x y z Sj i) L).length = L.length) ∧
      (∀ q ∈ K, (K.foldl (satisfyStep RpB CpB NullDim x y z Sj i) L).getD q 0 =
        L.getD q 0 - y i * (z i * (x (Sj.getD q 0)).transpose)) ∧
      (∀ q, q ∉ K →
        (K.foldl (satisfyStep RpB CpB NullDim x y z Sj i) L).getD q 0 =
          L.getD q 0) := by
  intro K
  induction K with
  | nil =>
    intro _ L _
    exact ⟨rfl, fun q hq => absurd hq (List.not_mem_nil q), fun _ _ => rfl⟩
  | cons p rest ih =>
    intro hnd L hK
    have hplen : p < L.length := hK p (List.mem_cons_self p rest)
    have hpn : p ∉ rest := (List.nodup_cons.mp hnd).1
    have hndr : rest.Nodup := (List.nodup_cons.mp hnd).2
    set L1 := satisfyStep RpB CpB NullDim x y z Sj i L p with hL1
    have hlen1 : L1.length = L.length := by
      rw [hL1, satisfyStep, List.length_set]
    have hKr : ∀ q ∈ rest, q < L1.length := by
      intro q hq
      rw [hlen1]
      exact hK q (List.mem_cons_of_mem p hq)
    obtain ⟨ihlen, ihin, ihout⟩ := ih hndr L1 hKr
    rw [List.foldl_cons]
    refine ⟨by rw [ihlen, hlen1], ?_, ?_⟩
    · intro q hq
      rcases List.mem_cons.mp hq with rfl | hq2
      · rw [ihout q hpn, hL1, satisfyStep, list_getD_set_self _ _ _ _ hplen]
      · have hqp : q ≠ p := fun he => hpn (he ▸ hq2)
        rw [ihin q hq2, hL1, satisfyStep, list_getD_set_ne _ _ _ _ _ (fun he => hqp he.symm)]
    · intro q hq
      have hqp : q ≠ p := fun he => hq (he ▸ List.mem_cons_self p rest)
      have hqr : q ∉ rest := fun hc => hq (List.mem_cons_of_mem p hc)
      rw [ihout q hqr, hL1, satisfyStep, list_getD_set_ne _ _ _ _ _ (fun he => hqp he.symm)]

theorem satisfy_outer (RpB CpB NullDim num : ℕ)
    (x : ℕ → Matrix (Fin CpB) (Fin NullDim) ℚ)
    (y : ℕ → Matrix (Fin RpB) (Fin NullDim) ℚ)
    (z : ℕ → Matrix (Fin NullDim) (Fin NullDim) ℚ)
    (Sp Sj : List ℕ) (Sx : List (Matrix (Fin RpB) (Fin CpB) ℚ))
    (hmono : ∀ b ≤ num, ∀ a ≤ b, Sp.getD a 0 ≤ Sp.getD b 0)
    (hlen : Sp.getD num 0 ≤ Sx.length) :
    (satisfy_constraints_helper RpB CpB NullDim num x y z Sp Sj Sx).length =
      Sx.length ∧
    (∀ pos, pos < Sx.length →
      (∀ i, i < num → Sp.getD i 0 ≤ pos → pos < Sp.getD (i + 1) 0 →
        (satisfy_constraints_helper RpB CpB NullDim num x y z Sp Sj Sx).getD
            pos 0 =
          Sx.getD pos 0 - y i * (z i * (x (Sj.getD pos 0)).transpose)) ∧
      ((∀ i, i < num → ¬(Sp.getD i 0 ≤ pos ∧ pos < Sp.getD (i + 1) 0)) →
        (satisfy_constraints_helper RpB CpB NullDim num x y z Sp Sj Sx).getD
            pos 0 = Sx.getD pos 0)) := by
  have main := foldl_range_inv
    (fun L i =>
      (List.range' (Sp.getD i 0) (Sp.getD (i + 1) 0 - Sp.getD i 0)).foldl
        (satisfyStep RpB CpB NullDim x y z Sj i) L)
    (fun t L => L.length = Sx.length ∧
      ∀ pos, pos < Sx.length →
        (∀ i, i < t → Sp.getD i 0 ≤ pos → pos < Sp.getD (i + 1) 0 →
          L.getD pos 0 =
            Sx.getD pos 0 - y i * (z i * (x (Sj.getD pos 0)).transpose)) ∧
        ((∀ i, i < t → ¬(Sp.getD i 0 ≤ pos ∧ pos < Sp.getD (i + 1) 0)) →
          L.getD pos 0 = Sx.getD pos 0))
    num Sx ?_ ?_
  · exact ⟨main.1, main.2⟩
  · refine ⟨rfl, ?_⟩
    intro pos _
    exact ⟨fun i hi => absurd hi (Nat.not_lt_zero i), fun _ => rfl⟩
  · intro t L ht hP
    obtain ⟨hPlen, hPval⟩ := hP
    have hmemK : ∀ q, q ∈ List.range' (Sp.getD t 0)
        (Sp.getD (t + 1) 0 - Sp.getD t 0) ↔
        (Sp.getD t 0 ≤ q ∧ q < Sp.getD (t + 1) 0) := by
      intro q
      rw [List.mem_range'_1]
      have hst : Sp.getD t 0 ≤ Sp.getD (t + 1) 0 :=
        hmono (t + 1) (by omega) t (by omega)
      omega
    have hbound : ∀ p ∈ List.range' (Sp.getD t 0)
        (Sp.getD (t + 1) 0 - Sp.getD t 0), p < L.length := by
      intro p hp
      have := (hmemK p).mp hp
      have h2 : Sp.getD (t + 1) 0 ≤ Sp.getD num 0 :=
        hmono num (le_refl num) (t + 1) (by omega)
      omega
    obtain ⟨hflen, hfin, hfout⟩ := satisfy_inner_fold RpB CpB NullDim x y z Sj t
      (List.range' (Sp.getD t 0) (Sp.getD (t + 1) 0 - Sp.getD t 0))
      (List.nodup_range' _ _) L hbound
    refine ⟨by rw [hflen, hPlen], ?_⟩
    intro pos hpos
    constructor
    · intro i hi hlo hhi
      rcases Nat.lt_succ_iff_lt_or_eq.mp hi with hc | hc
      · have hout : pos ∉ List.range' (Sp.getD t 0)
            (Sp.getD (t + 1) 0 - Sp.getD t 0) := by
          rw [hmemK]
          have : Sp.getD (i + 1) 0 ≤ Sp.getD t 0 :=
            hmono t (by omega) (i + 1) (by omega)
          omega
        rw [hfout pos hout]
        exact (hPval pos hpos).1 i hc hlo hhi
      · subst hc
        have hin : pos ∈ List.range' (Sp.getD i 0)
            (Sp.getD (i + 1) 0 - Sp.getD i 0) := (hmemK pos).mpr ⟨hlo, hhi⟩
        rw [hfin pos hin]
        have hbase : L.getD pos 0 = Sx.getD pos 0 := by
          apply (hPval pos hpos).2
          intro i2 hi2
          have : Sp.getD (i2 + 1) 0 ≤ Sp.getD i 0 :=
            hmono i (by omega) (i2 + 1) (by omega)
          omega
        rw [hbase]
    · intro hnone
      have hout : pos ∉ List.range' (Sp.getD t 0)
          (Sp.getD (t + 1) 0 - Sp.getD t 0) := by
        rw [hmemK]
        exact hnone t (by omega)
      rw [hfout pos hout]
      apply (hPval pos hpos).2
      intro i hi
      exact hnone i (by omega)

/-- C5: for every BSR pattern `(Sp, Sj)` with non-decreasing row pointer and
inputs `Bconj` (`x`), `UB` (`y`), `BtBinv` (`z`), `satisfy_constraints_helper`
replaces each stored block `Sx[pos]`, `pos` in `[Sp[i], Sp[i+1])`, by its
prior value minus `UB[i] * (BtBinv[i] * Bconj[Sj[pos]]^H)` and modifies
nothing else (stored positions outside every row interval keep their prior
value, and the value array keeps its length); consequently, when `UB[i]` is
block row `i` of `S*B` and `BtBinv[i]` is an inverse of the Gram matrix of
the candidates restricted to row `i`'s stored support, the corrected product
`S*B` is zero on every block row. -/
theorem C5_satisfy_constraints (RpB CpB NullDim num : ℕ)
    (x : ℕ → Matrix (Fin CpB) (Fin NullDim) ℚ)
    (y : ℕ → Matrix (Fin RpB) (Fin NullDim) ℚ)
    (z : ℕ → Matrix (Fin NullDim) (Fin NullDim) ℚ)
    (Sp Sj : List ℕ) (Sx : List (Matrix (Fin RpB) (Fin CpB) ℚ))
    (hmono : ∀ b ≤ num, ∀ a ≤ b, Sp.getD a 0 ≤ Sp.getD b 0)
    (hlen : Sp.getD num 0 ≤ Sx.length) :
    (satisfy_constraints_helper RpB CpB NullDim num x y z Sp Sj Sx).length =
      Sx.length ∧
    (∀ i, i < num → ∀ pos, Sp.getD i 0 ≤ pos → pos < Sp.getD (i + 1) 0 →
      (satisfy_constraints_helper RpB CpB NullDim num x y z Sp Sj Sx).getD
          pos 0 =
        Sx.getD pos 0 - y i * (z i * (x (Sj.getD pos 0)).transpose)) ∧
    (∀ pos, pos < Sx.length →
      (∀ i, i < num → ¬(Sp.getD i 0 ≤ pos ∧ pos < Sp.getD (i + 1) 0)) →
      (satisfy_constraints_helper RpB CpB NullDim num x y z Sp Sj Sx).getD
          pos 0 = Sx.getD pos 0) ∧
    ((∀ i, i < num → y i = rowSB RpB CpB NullDim x Sp Sj Sx i ∧
        z i * rowGram CpB NullDim x Sp Sj i = 1) →
      ∀ i, i < num →
        rowSB RpB CpB NullDim x Sp Sj
          (satisfy_constraints_helper RpB CpB NullDim num x y z Sp Sj Sx) i =
          0) := by
  obtain ⟨hL, hval⟩ := satisfy_outer RpB CpB NullDim num x y z Sp Sj Sx hmono hlen
  have hclause1 : ∀ i, i < num → ∀ pos, Sp.getD i 0 ≤ pos →
      pos < Sp.getD (i + 1) 0 →
      (satisfy_constraints_helper RpB CpB NullDim num x y z Sp Sj Sx).getD
          pos 0 =
        Sx.getD pos 0 - y i * (z i * (x (Sj.getD pos 0)).transpose) := by
    intro i hi pos hlo hhi
    have hposlen : pos < Sx.length :=
      lt_of_lt_of_le hhi (le_trans (hmono num (le_refl num) (i + 1) (by omega)) hlen)
    exact (hval pos hposlen).1 i hi hlo hhi
  refine ⟨hL, hclause1, fun pos hp hno => (hval pos hp).2 hno, ?_⟩
  intro hYZ i hi
  have hsum : rowSB RpB CpB NullDim x Sp Sj
      (satisfy_constraints_helper RpB CpB NullDim num x y z Sp Sj Sx) i =
      ∑ pos ∈ Finset.Ico (Sp.getD i 0) (Sp.getD (i + 1) 0),
        (Sx.getD pos 0 - y i * (z i * (x (Sj.getD pos 0)).transpose)) *
          x (Sj.getD pos 0) := by
    rw [rowSB]
    apply Finset.sum_congr rfl
    intro pos hpos
    rw [Finset.mem_Ico] at hpos
    rw [hclause1 i hi pos hpos.1 hpos.2]
  rw [hsum]
  have hexp : ∀ pos : ℕ,
      (Sx.getD pos 0 - y i * (z i * (x (Sj.getD pos 0)).transpose)) *
          x (Sj.getD pos 0) =
        Sx.getD pos 0 * x (Sj.getD pos 0) -
          y i * (z i * ((x (Sj.getD pos 0)).transpose * x (Sj.getD pos 0))) := by
    intro pos
    rw [Matrix.sub_mul, Matrix.mul_assoc, Matrix.mul_assoc]
  simp only [hexp]
  rw [Finset.sum_sub_distrib]
  have h1 : y i = ∑ pos ∈ Finset.Ico (Sp.getD i 0) (Sp.getD (i + 1) 0),
      Sx.getD pos 0 * x (Sj.getD pos 0) := (hYZ i hi).1
  have h2 : y i * (z i * rowGram CpB NullDim x Sp Sj i) =
      ∑ pos ∈ Finset.Ico (Sp.getD i 0) (Sp.getD (i + 1) 0),
        y i * (z i * ((x (Sj.getD pos 0)).transpose * x (Sj.getD pos 0))) := by
    rw [rowGram, Matrix.mul_sum, Matrix.mul_sum]
  rw [← h1, ← h2, (hYZ i hi).2, Matrix.mul_one, sub_self]

theorem C5_satisfy_constraints_witness :
    (∀ b ≤ 1, ∀ a ≤ b, ([0, 1] : List ℕ).getD a 0 ≤ ([0, 1] : List ℕ).getD b 0) ∧
    (([0, 1] : List ℕ).getD 1 0 ≤
      ([(1 : Matrix (Fin 1) (Fin 1) ℚ)]).length) ∧
    (satisfy_constraints_helper 1 1 1 1 (fun _ => 1) (fun _ => 1) (fun _ => 1)
        [0, 1] [0] [(1 : Matrix (Fin 1) (Fin 1) ℚ)]).length =
      ([(1 : Matrix (Fin 1) (Fin 1) ℚ)]).length :=
  ⟨by decide, by decide,
    (C5_satisfy_constraints 1 1 1 1 (fun _ => 1) (fun _ => 1) (fun _ => 1)
      [0, 1] [0] [(1 : Matrix (Fin 1) (Fin 1) ℚ)] (by decide) (by decide)).1⟩

theorem range'_map_sum {M : Type} [AddCommMonoid M] (f : ℕ → M) :
    ∀ (n a : ℕ), ((List.range' a n).map f).sum = ∑ x ∈ Finset.Ico a (a + n), f x := by
  intro n
  induction n with
  | zero => intro a; simp
  | succ m ih =>
    intro a
    rw [List.range'_succ, List.map_cons, List.sum_cons, ih (a + 1)]
    have harith : a + 1 + m = a + (m + 1) := by omega
    rw [harith]
    rw [Finset.sum_eq_sum_Ico_succ_bot (show a < a + (m + 1) by omega) f]

theorem lookup_fold_not_mem (Sj : List ℕ) (K : List ℕ) (tbl : ℕ → Option ℕ)
    (k : ℕ) (hk : ∀ p ∈ K, Sj.getD p 0 ≠ k) :
    (K.foldl (fun t jj => Function.update t (Sj.getD jj 0) (some jj)) tbl) k =
      tbl k := by
  induction K generalizing tbl with
  | nil => rfl
  | cons a rest ih =>
    rw [List.foldl_cons]
    rw [ih _ (fun p hp => hk p (List.mem_cons_of_mem a hp))]
    exact Function.update_noteq (fun he => hk a (List.mem_cons_self a rest) he.symm) _ _

theorem lookup_fold_mem (Sj : List ℕ) (K : List ℕ) (tbl : ℕ → Option ℕ)
    (p : ℕ) (hp : p ∈ K) (hnd : K.Nodup)
    (hinj : ∀ q ∈ K, Sj.getD q 0 = Sj.getD p 0 → q = p) :
    (K.foldl (fun t jj => Function.update t (Sj.getD jj 0) (some jj)) tbl)
      (Sj.getD p 0) = some p := by
  induction K generalizing tbl with
  | nil => exact absurd hp (List.not_mem_nil p)
  | cons a rest ih =>
    rw [List.foldl_cons]
    rcases List.mem_cons.mp hp with rfl | hp2
    · rw [lookup_fold_not_mem]
      · exact Function.update_same _ _ _
      · intro q hq he
        have hqa : q = p := hinj q (List.mem_cons_of_mem p hq) he
        exact (List.nodup_cons.mp hnd).1 (hqa ▸ hq)
    · exact ih _ hp2 (List.nodup_cons.mp hnd).2
        (fun q hq he => hinj q (List.mem_cons_of_mem a hq) he)

theorem lookup_fold_some (Sj : List ℕ) (K : List ℕ) (tbl : ℕ → Option ℕ)
    (k pos : ℕ)
    (h : (K.foldl (fun t jj => Function.update t (Sj.getD jj 0) (some jj)) tbl)
      k = some pos) :
    pos ∈ K ∨ tbl k = some pos := by
  induction K generalizing tbl with
  | nil => exact Or.inr h
  | cons a rest ih =>
    rw [List.foldl_cons] at h
    rcases ih _ h with hm | hm
    · exact Or.inl (List.mem_cons_of_mem a hm)
    · by_cases he : Sj.getD a 0 = k
      · rw [← he, Function.update_same] at hm
        exact Or.inl (List.mem_cons.mpr (Or.inl (Option.some_injective _ hm).symm))
      · rw [Function.update_noteq (fun hc => he hc.symm)] at hm
        exact Or.inr hm

theorem lookup_fold_some_key (Sj : List ℕ) (K : List ℕ) (tbl : ℕ → Option ℕ)
    (k pos : ℕ)
    (h : (K.foldl (fun t jj => Function.update t (Sj.getD jj 0) (some jj)) tbl)
      k = some pos) :
    (pos ∈ K ∧ Sj.getD pos 0 = k) ∨ tbl k = some pos := by
  induction K generalizing tbl with
  | nil => exact Or.inr h
  | cons a rest ih =>
    rw [List.foldl_cons] at h
    rcases ih _ h with ⟨hm, hkey⟩ | hm
    · exact Or.inl ⟨List.mem_cons_of_mem a hm, hkey⟩
    · by_cases he : Sj.getD a 0 = k
      · rw [← he, Function.update_same] at hm
        have hap : a = pos := Option.some_injective _ hm
        exact Or.inl ⟨List.mem_cons.mpr (Or.inl hap.symm), hap ▸ he⟩
      · rw [Function.update_noteq (fun hc => he hc.symm)] at hm
        exact Or.inr hm

theorem bsrLookup_some_range (Sj : List ℕ) (lo hi k pos : ℕ)
    (h : bsrLookup Sj lo hi k = some pos) : lo ≤ pos ∧ pos < hi := by
  rcases lookup_fold_some_key Sj _ _ k pos h with ⟨hm, _⟩ | hm
  · rw [List.mem_range'_1] at hm
    omega
  · exact absurd hm (by simp)

theorem bsrLookup_some_key (Sj : List ℕ) (lo hi k pos : ℕ)
    (h : bsrLookup Sj lo hi k = some pos) : Sj.getD pos 0 = k := by
  rcases lookup_fold_some_key Sj _ _ k pos h with ⟨_, hkey⟩ | hm
  · exact hkey
  · exact absurd hm (by simp)

theorem bsrLookup_mem (Sj : List ℕ) (lo hi pos : ℕ) (hlo : lo ≤ pos)
    (hhi : pos < hi)
    (hinj : ∀ q, lo ≤ q → q < hi → Sj.getD q 0 = Sj.getD pos 0 → q = pos) :
    bsrLookup Sj lo hi (Sj.getD pos 0) = some pos := by
  apply lookup_fold_mem
  · rw [List.mem_range'_1]
    omega
  · exact List.nodup_range' _ _
  · intro q hq he
    rw [List.mem_range'_1] at hq
    exact hinj q hq.1 (by omega) he

theorem accumB_fold (brA bcA bcB : ℕ)
    (Ax : List (Matrix (Fin brA) (Fin bcA) ℚ))
    (Bx : List (Matrix (Fin bcA) (Fin bcB) ℚ))
    (Bj : List ℕ) (lookup : ℕ → Option ℕ) (jj : ℕ) :
    ∀ (K : List ℕ) (L : List (Matrix (Fin brA) (Fin bcB) ℚ)),
      (∀ k pos, lookup k = some pos → pos < L.length) →
      ((K.foldl (fun L kk =>
          match lookup (Bj.getD kk 0) with
          | some pos => L.set pos (L.getD pos 0 + Ax.getD jj 0 * Bx.getD kk 0)
          | none => L) L).length = L.length) ∧
      (∀ q, q < L.length →
        (K.foldl (fun L kk =>
          match lookup (Bj.getD kk 0) with
          | some pos => L.set pos (L.getD pos 0 + Ax.getD jj 0 * Bx.getD kk 0)
          | none => L) L).getD q 0 = L.getD q 0 +
          ((K.map (fun kk => if lookup (Bj.getD kk 0) = some q
              then Ax.getD jj 0 * Bx.getD kk 0 else 0)).sum)) := by
  intro K
  induction K with
  | nil =>
    intro L _
    exact ⟨rfl, fun q _ => by simp⟩
  | cons kk rest ih =>
    intro L hbound
    rw [List.foldl_cons]
    simp only [List.map_cons, List.sum_cons]
    cases hl : lookup (Bj.getD kk 0) with
    | none =>
      simp only [hl]
      obtain ⟨ihlen, ihval⟩ := ih L hbound
      refine ⟨ihlen, ?_⟩
      intro q hq
      rw [ihval q hq]
      simp [hl]
    | some pos =>
      simp only [hl]
      have hposlen : pos < L.length := hbound _ pos hl
      set L1 := L.set pos (L.getD pos 0 + Ax.getD jj 0 * Bx.getD kk 0) with hL1
      have hlen1 : L1.length = L.length := by rw [hL1, List.length_set]
      obtain ⟨ihlen, ihval⟩ := ih L1 (fun k p hp => by
        rw [hlen1]; exact hbound k p hp)
      refine ⟨by rw [ihlen, hlen1], ?_⟩
      intro q hq
      rw [ihval q (by omega)]
      rcases eq_or_ne q pos with rfl | hqp
      · rw [hL1, list_getD_set_self _ _ _ _ hposlen]
        rw [if_pos rfl]
        abel
      · rw [hL1, list_getD_set_ne _ _ _ _ _ (fun he => hqp he.symm)]
        rw [if_neg (fun he => hqp (Option.some_injective _ he.symm))]
        abel

theorem immAccumB_char (brA bcA bcB : ℕ)
    (Ax : List (Matrix (Fin brA) (Fin bcA) ℚ))
    (Bx : List (Matrix (Fin bcA) (Fin bcB) ℚ))
    (Bp Bj : List ℕ) (lookup : ℕ → Option ℕ) (j jj : ℕ)
    (L : List (Matrix (Fin brA) (Fin bcB) ℚ))
    (hbound : ∀ k pos, lookup k = some pos → pos < L.length) :
    ((immAccumB brA bcA bcB Ax Bx Bp Bj lookup j jj L).length = L.length) ∧
    (∀ q, q < L.length →
      (immAccumB brA bcA bcB Ax Bx Bp Bj lookup j jj L).getD q 0 =
        L.getD q 0 +
          (((List.range' (Bp.getD j 0) (Bp.getD (j + 1) 0 - Bp.getD j 0)).map
            (fun kk => if lookup (Bj.getD kk 0) = some q
              then Ax.getD jj 0 * Bx.getD kk 0 else 0)).sum)) :=
  accumB_fold brA bcA bcB Ax Bx Bj lookup jj
    (List.range' (Bp.getD j 0) (Bp.getD (j + 1) 0 - Bp.getD j 0)) L hbound

theorem immRow_char (brA bcA bcB : ℕ)
    (Ap Aj : List ℕ) (Ax : List (Matrix (Fin brA) (Fin bcA) ℚ))
    (Bp Bj : List ℕ) (Bx : List (Matrix (Fin bcA) (Fin bcB) ℚ))
    (lookup : ℕ → Option ℕ) (i : ℕ) :
    ∀ (KA : List ℕ) (L : List (Matrix (Fin brA) (Fin bcB) ℚ)),
      (∀ k pos, lookup k = some pos → pos < L.length) →
      ((KA.foldl (fun L jj =>
          immAccumB brA bcA bcB Ax Bx Bp Bj lookup (Aj.getD jj 0) jj L)
          L).length = L.length) ∧
      (∀ q, q < L.length →
        (KA.foldl (fun L jj =>
          immAccumB brA bcA bcB Ax Bx Bp Bj lookup (Aj.getD jj 0) jj L)
          L).getD q 0 =
          L.getD q 0 +
            ((KA.map (fun jj =>
              ((List.range' (Bp.getD (Aj.getD jj 0) 0)
                  (Bp.getD (Aj.getD jj 0 + 1) 0 - Bp.getD (Aj.getD jj 0) 0)).map
                (fun kk => if lookup (Bj.getD kk 0) = some q
                  then Ax.getD jj 0 * Bx.getD kk 0 else 0)).sum)).sum)) := by
  intro KA
  induction KA with
  | nil =>
    intro L _
    exact ⟨rfl, fun q _ => by simp⟩
  | cons jj rest ih =>
    intro L hbound
    rw [List.foldl_cons]
    simp only [List.map_cons, List.sum_cons]
    obtain ⟨hlen1, hval1⟩ := immAccumB_char brA bcA bcB Ax Bx Bp Bj lookup
      (Aj.getD jj 0) jj L hbound
    obtain ⟨ihlen, ihval⟩ := ih
      (immAccumB brA bcA bcB Ax Bx Bp Bj lookup (Aj.getD jj 0) jj L)
      (fun k p hp => by rw [hlen1]; exact hbound k p hp)
    refine ⟨by rw [ihlen, hlen1], ?_⟩
    intro q hq
    rw [ihval q (by omega), hval1 q hq]
    abel

theorem incomplete_mat_mult_outer (brA bcA bcB : ℕ)
    (Ap Aj : List ℕ) (Ax : List (Matrix (Fin brA) (Fin bcA) ℚ))
    (Bp Bj : List ℕ) (Bx : List (Matrix (Fin bcA) (Fin bcB) ℚ))
    (Sp Sj : List ℕ) (Sx : List (Matrix (Fin brA) (Fin bcB) ℚ))
    (n_brow : ℕ)
    (hmono : ∀ b ≤ n_brow, ∀ a ≤ b, Sp.getD a 0 ≤ Sp.getD b 0)
    (hlen : Sp.getD n_brow 0 ≤ Sx.length)
    (hinj : ∀ i < n_brow, ∀ p, Sp.getD i 0 ≤ p → p < Sp.getD (i + 1) 0 →
      ∀ q, Sp.getD i 0 ≤ q → q < Sp.getD (i + 1) 0 →
        Sj.getD p 0 = Sj.getD q 0 → p = q) :
    (incomplete_mat_mult_bsr brA bcA bcB Ap Aj Ax Bp Bj Bx Sp Sj Sx
        n_brow).length = Sx.length ∧
    (∀ pos, pos < Sx.length →
      (∀ i, i < n_brow → Sp.getD i 0 ≤ pos → pos < Sp.getD (i + 1) 0 →
        (incomplete_mat_mult_bsr brA bcA bcB Ap Aj Ax Bp Bj Bx Sp Sj Sx
            n_brow).getD pos 0 =
          Sx.getD pos 0 +
            ((List.range' (Ap.getD i 0)
                (Ap.getD (i + 1) 0 - Ap.getD i 0)).map (fun jj =>
              ((List.range' (Bp.getD (Aj.getD jj 0) 0)
                  (Bp.getD (Aj.getD jj 0 + 1) 0 -
                    Bp.getD (Aj.getD jj 0) 0)).map
                (fun kk => if Bj.getD kk 0 = Sj.getD pos 0
                  then Ax.getD jj 0 * Bx.getD kk 0 else 0)).sum)).sum) ∧
      ((∀ i, i < n_brow → ¬(Sp.getD i 0 ≤ pos ∧ pos < Sp.getD (i + 1) 0)) →
        (incomplete_mat_mult_bsr brA bcA bcB Ap Aj Ax Bp Bj Bx Sp Sj Sx
            n_brow).getD pos 0 = Sx.getD pos 0)) := by
  have main := foldl_range_inv
    (fun L i =>
      immRow brA bcA bcB Ap Aj Ax Bp Bj Bx
        (bsrLookup Sj (Sp.getD i 0) (Sp.getD (i + 1) 0)) i L)
    (fun t L => L.length = Sx.length ∧
      ∀ pos, pos < Sx.length →
        (∀ i, i < t → Sp.getD i 0 ≤ pos → pos < Sp.getD (i + 1) 0 →
          L.getD pos 0 = Sx.getD pos 0 +
            ((List.range' (Ap.getD i 0)
                (Ap.getD (i + 1) 0 - Ap.getD i 0)).map (fun jj =>
              ((List.range' (Bp.getD (Aj.getD jj 0) 0)
                  (Bp.getD (Aj.getD jj 0 + 1) 0 -
                    Bp.getD (Aj.getD jj 0) 0)).map
                (fun kk => if Bj.getD kk 0 = Sj.getD pos 0
                  then Ax.getD jj 0 * Bx.getD kk 0 else 0)).sum)).sum) ∧
        ((∀ i, i < t → ¬(Sp.getD i 0 ≤ pos ∧ pos < Sp.getD (i + 1) 0)) →
          L.getD pos 0 = Sx.getD pos 0))
    n_brow Sx ?_ ?_
  · exact ⟨main.1, main.2⟩
  · refine ⟨rfl, ?_⟩
    intro pos _
    exact ⟨fun i hi => absurd hi (Nat.not_lt_zero i), fun _ => rfl⟩
  · intro t L ht hP
    obtain ⟨hPlen, hPval⟩ := hP
    have hbound : ∀ k pos,
        bsrLookup Sj (Sp.getD t 0) (Sp.getD (t + 1) 0) k = some pos →
        pos < L.length := by
      intro k pos hp
      obtain ⟨_, h2⟩ := bsrLookup_some_range Sj _ _ k pos hp
      have h3 : Sp.getD (t + 1) 0 ≤ Sp.getD n_brow 0 :=
        hmono n_brow (le_refl n_brow) (t + 1) (by omega)
      omega
    obtain ⟨hflen, hfval⟩ := immRow_char brA bcA bcB Ap Aj Ax Bp Bj Bx
      (bsrLookup Sj (Sp.getD t 0) (Sp.getD (t + 1) 0)) t
      (List.range' (Ap.getD t 0) (Ap.getD (t + 1) 0 - Ap.getD t 0)) L hbound
    refine ⟨by simp only [immRow]; rw [hflen, hPlen], ?_⟩
    intro pos hpos
    have hposL : pos < L.length := by omega
    constructor
    · intro i hi hlo hhi
      rcases Nat.lt_succ_iff_lt_or_eq.mp hi with hc | hc
      · -- pos lies in an earlier row: row t adds nothing at pos
        simp only [immRow]
        rw [hfval pos hposL]
        have hzero : ∀ jj kk : ℕ,
            (if bsrLookup Sj (Sp.getD t 0) (Sp.getD (t + 1) 0)
                  (Bj.getD kk 0) = some pos
              then Ax.getD jj 0 * Bx.getD kk 0 else 0) = 0 := by
          intro jj kk
          rw [if_neg]
          intro hsome
          obtain ⟨h1, _⟩ := bsrLookup_some_range Sj _ _ _ pos hsome
          have : Sp.getD (i + 1) 0 ≤ Sp.getD t 0 :=
            hmono t (by omega) (i + 1) (by omega)
          omega
        simp only [hzero]
        simp only [List.map_const', List.sum_replicate, smul_zero,
          add_zero]
        exact (hPval pos hpos).1 i hc hlo hhi
      · subst hc
        simp only [immRow]
        rw [hfval pos hposL]
        have hbase : L.getD pos 0 = Sx.getD pos 0 := by
          apply (hPval pos hpos).2
          intro i2 hi2
          have : Sp.getD (i2 + 1) 0 ≤ Sp.getD i 0 :=
            hmono i (by omega) (i2 + 1) (by omega)
          omega
        rw [hbase]
        congr 2
        apply List.map_congr_left
        intro jj _
        congr 1
        apply List.map_congr_left
        intro kk _
        have hiff : (bsrLookup Sj (Sp.getD i 0) (Sp.getD (i + 1) 0)
            (Bj.getD kk 0) = some pos) ↔ (Bj.getD kk 0 = Sj.getD pos 0) := by
          constructor
          · intro hsome
            exact (bsrLookup_some_key Sj _ _ _ pos hsome).symm
          · intro he
            rw [he]
            apply bsrLookup_mem Sj _ _ pos hlo hhi
            intro q hq1 hq2 hqe
            exact hinj i ht q hq1 hq2 pos hlo hhi hqe
        by_cases hcond : Bj.getD kk 0 = Sj.getD pos 0
        · rw [if_pos (hiff.mpr hcond), if_pos hcond]
        · rw [if_neg (fun hs => hcond (hiff.mp hs)), if_neg hcond]
    · intro hnone
      simp only [immRow]
      rw [hfval pos hposL]
      have hzero : ∀ jj kk : ℕ,
          (if bsrLookup Sj (Sp.getD t 0) (Sp.getD (t + 1) 0)
                (Bj.getD kk 0) = some pos
            then Ax.getD jj 0 * Bx.getD kk 0 else 0) = 0 := by
        intro jj kk
        rw [if_neg]
        intro hsome
        have := bsrLookup_some_range Sj _ _ _ pos hsome
        exact hnone t (by omega) ⟨this.1, this.2⟩
      simp only [hzero]
      simp only [List.map_const', List.sum_replicate, smul_zero, add_zero]
      apply (hPval pos hpos).2
      intro i hi
      exact hnone i (by omega)

theorem Ico_add_sub (a b : ℕ) : Finset.Ico a (a + (b - a)) = Finset.Ico a b := by
  apply Finset.ext
  intro m
  simp only [Finset.mem_Ico]
  omega

theorem contrib_conv (brA bcA bcB : ℕ)
    (Ap Aj : List ℕ) (Ax : List (Matrix (Fin brA) (Fin bcA) ℚ))
    (Bp Bj : List ℕ) (Bx : List (Matrix (Fin bcA) (Fin bcB) ℚ))
    (i c : ℕ) :
    ((List.range' (Ap.getD i 0) (Ap.getD (i + 1) 0 - Ap.getD i 0)).map
      (fun jj =>
        ((List.range' (Bp.getD (Aj.getD jj 0) 0)
            (Bp.getD (Aj.getD jj 0 + 1) 0 - Bp.getD (Aj.getD jj 0) 0)).map
          (fun kk => if Bj.getD kk 0 = c
            then Ax.getD jj 0 * Bx.getD kk 0 else 0)).sum)).sum =
      immContrib brA bcA bcB Ap Aj Ax Bp Bj Bx i c := by
  rw [range'_map_sum, Ico_add_sub, immContrib]
  apply Finset.sum_congr rfl
  intro jj _
  rw [range'_map_sum, Ico_add_sub]

theorem contrib_regroup (brA bcA bcB nB : ℕ)
    (Ap Aj : List ℕ) (Ax : List (Matrix (Fin brA) (Fin bcA) ℚ))
    (Bp Bj : List ℕ) (Bx : List (Matrix (Fin bcA) (Fin bcB) ℚ))
    (i c : ℕ)
    (hAjlt : ∀ jj, Ap.getD i 0 ≤ jj → jj < Ap.getD (i + 1) 0 →
      Aj.getD jj 0 < nB) :
    immContrib brA bcA bcB Ap Aj Ax Bp Bj Bx i c =
      ∑ k ∈ Finset.range nB,
        bsrDenseA brA bcA Ap Aj Ax i k * bsrDenseB bcA bcB Bp Bj Bx k c := by
  symm
  calc ∑ k ∈ Finset.range nB,
        bsrDenseA brA bcA Ap Aj Ax i k * bsrDenseB bcA bcB Bp Bj Bx k c
      = ∑ k ∈ Finset.range nB,
          ∑ jj ∈ Finset.Ico (Ap.getD i 0) (Ap.getD (i + 1) 0),
            (if Aj.getD jj 0 = k then Ax.getD jj 0 else 0) *
              bsrDenseB bcA bcB Bp Bj Bx k c := by
        apply Finset.sum_congr rfl
        intro k _
        rw [bsrDenseA, Matrix.sum_mul]
    _ = ∑ jj ∈ Finset.Ico (Ap.getD i 0) (Ap.getD (i + 1) 0),
          ∑ k ∈ Finset.range nB,
            (if Aj.getD jj 0 = k then Ax.getD jj 0 else 0) *
              bsrDenseB bcA bcB Bp Bj Bx k c := Finset.sum_comm
    _ = ∑ jj ∈ Finset.Ico (Ap.getD i 0) (Ap.getD (i + 1) 0),
          Ax.getD jj 0 * bsrDenseB bcA bcB Bp Bj Bx (Aj.getD jj 0) c := by
        apply Finset.sum_congr rfl
        intro jj hjj
        rw [Finset.mem_Ico] at hjj
        have hstep : ∀ k : ℕ,
            (if Aj.getD jj 0 = k then Ax.getD jj 0 else 0) *
                bsrDenseB bcA bcB Bp Bj Bx k c =
              if Aj.getD jj 0 = k
                then Ax.getD jj 0 * bsrDenseB bcA bcB Bp Bj Bx k c else 0 := by
          intro k
          by_cases h : Aj.getD jj 0 = k
          · rw [if_pos h, if_pos h]
          · rw [if_neg h, if_neg h, Matrix.zero_mul]
        simp only [hstep]
        rw [Finset.sum_ite_eq]
        rw [if_pos (Finset.mem_range.mpr (hAjlt jj hjj.1 hjj.2))]
    _ = ∑ jj ∈ Finset.Ico (Ap.getD i 0) (Ap.getD (i + 1) 0),
          ∑ kk ∈ Finset.Ico (Bp.getD (Aj.getD jj 0) 0)
              (Bp.getD (Aj.getD jj 0 + 1) 0),
            (if Bj.getD kk 0 = c then Ax.getD jj 0 * Bx.getD kk 0 else 0) := by
        apply Finset.sum_congr rfl
        intro jj _
        rw [bsrDenseB, Matrix.mul_sum]
        apply Finset.sum_congr rfl
        intro kk _
        by_cases h : Bj.getD kk 0 = c
        · rw [if_pos h, if_pos h]
        · rw [if_neg h, if_neg h, Matrix.mul_zero]
    _ = immContrib brA bcA bcB Ap Aj Ax Bp Bj Bx i c := by rw [immContrib]

/-- C3: for BSR matrices `A`, `B` and a fixed pattern `S` with non-decreasing
row pointers, duplicate-free stored columns per row of `S`, and compatible
block sizes, `incomplete_mat_mult_bsr` modifies only the value array `Sx`
(same length, entries outside the row intervals untouched), adding to each
structurally present block at position `pos` of block row `i` exactly the sum
of the block products `Ax[jj] * Bx[kk]` over all stored index pairs sharing
the intermediate index (`immContrib`); hence when the stored block is zero on
entry it ends up equal to the dense block product of `A` and `B` at that
pattern position, and blocks with no `(A,B)` product path keep their prior
value; product pairs whose column is structurally absent from `S` are skipped
without any error (the routine is total and only present positions change). -/
theorem C3_incomplete_mat_mult (brA bcA bcB n_brow nB : ℕ)
    (Ap Aj : List ℕ) (Ax : List (Matrix (Fin brA) (Fin bcA) ℚ))
    (Bp Bj : List ℕ) (Bx : List (Matrix (Fin bcA) (Fin bcB) ℚ))
    (Sp Sj : List ℕ) (Sx : List (Matrix (Fin brA) (Fin bcB) ℚ))
    (hmono : ∀ b ≤ n_brow, ∀ a ≤ b, Sp.getD a 0 ≤ Sp.getD b 0)
    (hlen : Sp.getD n_brow 0 ≤ Sx.length)
    (hinj : ∀ i < n_brow, ∀ p < Sp.getD (i + 1) 0, Sp.getD i 0 ≤ p →
      ∀ q < Sp.getD (i + 1) 0, Sp.getD i 0 ≤ q →
        Sj.getD p 0 = Sj.getD q 0 → p = q)
    (hAjlt : ∀ i < n_brow, ∀ jj < Ap.getD (i + 1) 0, Ap.getD i 0 ≤ jj →
      Aj.getD jj 0 < nB) :
    (incomplete_mat_mult_bsr brA bcA bcB Ap Aj Ax Bp Bj Bx Sp Sj Sx
        n_brow).length = Sx.length ∧
    (∀ i, i < n_brow → ∀ pos, Sp.getD i 0 ≤ pos → pos < Sp.getD (i + 1) 0 →
      (incomplete_mat_mult_bsr brA bcA bcB Ap Aj Ax Bp Bj Bx Sp Sj Sx
          n_brow).getD pos 0 =
        Sx.getD pos 0 +
          immContrib brA bcA bcB Ap Aj Ax Bp Bj Bx i (Sj.getD pos 0)) ∧
    (∀ pos, pos < Sx.length →
      (∀ i, i < n_brow → ¬(Sp.getD i 0 ≤ pos ∧ pos < Sp.getD (i + 1) 0)) →
      (incomplete_mat_mult_bsr brA bcA bcB Ap Aj Ax Bp Bj Bx Sp Sj Sx
          n_brow).getD pos 0 = Sx.getD pos 0) ∧
    (∀ i, i < n_brow → ∀ pos, Sp.getD i 0 ≤ pos → pos < Sp.getD (i + 1) 0 →
      Sx.getD pos 0 = 0 →
      (incomplete_mat_mult_bsr brA bcA bcB Ap Aj Ax Bp Bj Bx Sp Sj Sx
          n_brow).getD pos 0 =
        ∑ k ∈ Finset.range nB,
          bsrDenseA brA bcA Ap Aj Ax i k *
            bsrDenseB bcA bcB Bp Bj Bx k (Sj.getD pos 0)) := by
  obtain ⟨hL, hval⟩ := incomplete_mat_mult_outer brA bcA bcB Ap Aj Ax Bp Bj Bx
    Sp Sj Sx n_brow hmono hlen
    (fun i hi p hp1 hp2 q hq1 hq2 he => hinj i hi p hp2 hp1 q hq2 hq1 he)
  have hclause1 : ∀ i, i < n_brow → ∀ pos, Sp.getD i 0 ≤ pos →
      pos < Sp.getD (i + 1) 0 →
      (incomplete_mat_mult_bsr brA bcA bcB Ap Aj Ax Bp Bj Bx Sp Sj Sx
          n_brow).getD pos 0 =
        Sx.getD pos 0 +
          immContrib brA bcA bcB Ap Aj Ax Bp Bj Bx i (Sj.getD pos 0) := by
    intro i hi pos hlo hhi
    have hposlen : pos < Sx.length :=
      lt_of_lt_of_le hhi
        (le_trans (hmono n_brow (le_refl n_brow) (i + 1) (by omega)) hlen)
    rw [(hval pos hposlen).1 i hi hlo hhi, contrib_conv]
  refine ⟨hL, hclause1, fun pos hp hno => (hval pos hp).2 hno, ?_⟩
  intro i hi pos hlo hhi hz
  rw [hclause1 i hi pos hlo hhi, hz, zero_add]
  exact contrib_regroup brA bcA bcB nB Ap Aj Ax Bp Bj Bx i (Sj.getD pos 0)
    (fun jj h1 h2 => hAjlt i hi jj h2 h1)

theorem C3_incomplete_mat_mult_witness :
    (∀ b ≤ 1, ∀ a ≤ b, ([0, 1] : List ℕ).getD a 0 ≤ ([0, 1] : List ℕ).getD b 0) ∧
    (([0, 1] : List ℕ).getD 1 0 ≤ ([(0 : Matrix (Fin 1) (Fin 1) ℚ)]).length) ∧
    (∀ i < 1, ∀ p < ([0, 1] : List ℕ).getD (i + 1) 0,
      ([0, 1] : List ℕ).getD i 0 ≤ p →
      ∀ q < ([0, 1] : List ℕ).getD (i + 1) 0, ([0, 1] : List ℕ).getD i 0 ≤ q →
        ([0] : List ℕ).getD p 0 = ([0] : List ℕ).getD q 0 → p = q) ∧
    (∀ i < 1, ∀ jj < ([0, 1] : List ℕ).getD (i + 1) 0,
      ([0, 1] : List ℕ).getD i 0 ≤ jj → ([0] : List ℕ).getD jj 0 < 1) ∧
    (incomplete_mat_mult_bsr 1 1 1 [0, 1] [0]
        [(1 : Matrix (Fin 1) (Fin 1) ℚ)] [0, 1] [0]
        [(1 : Matrix (Fin 1) (Fin 1) ℚ)] [0, 1] [0]
        [(0 : Matrix (Fin 1) (Fin 1) ℚ)] 1).length =
      ([(0 : Matrix (Fin 1) (Fin 1) ℚ)]).length :=
  ⟨by decide, by decide,
    (by
      intro i hi p hp h1 q hq h2 h3
      have hi0 : i = 0 := by omega
      subst hi0
      have hp2 : p < 1 := hp
      have hq2 : q < 1 := hq
      omega), by decide,
    (C3_incomplete_mat_mult 1 1 1 1 1 [0, 1] [0]
      [(1 : Matrix (Fin 1) (Fin 1) ℚ)] [0, 1] [0]
      [(1 : Matrix (Fin 1) (Fin 1) ℚ)] [0, 1] [0]
      [(0 : Matrix (Fin 1) (Fin 1) ℚ)]
      (by decide) (by decide)
      (by
      intro i hi p hp h1 q hq h2 h3
      have hi0 : i = 0 := by omega
      subst hi0
      have hp2 : p < 1 := hp
      have hq2 : q < 1 := hq
      omega) (by decide)).1⟩

theorem rdot_comm (m : ℕ) (u v : ℕ → ℝ) : rdot m u v = rdot m v u := by
  rw [rdot, rdot]
  apply Finset.sum_congr rfl
  intro k _
  ring

theorem rdot_zfun_right (m : ℕ) (u : ℕ → ℝ) : rdot m u zfun = 0 := by
  rw [rdot]
  apply Finset.sum_eq_zero
  intro k _
  rw [zfun]
  ring

theorem rdot_sub_left (m : ℕ) (u t v : ℕ → ℝ) :
    rdot m (fun k => u k - t k) v = rdot m u v - rdot m t v := by
  rw [rdot, rdot, rdot, ← Finset.sum_sub_distrib]
  apply Finset.sum_congr rfl
  intro k _
  ring

theorem rdot_smul_left (m : ℕ) (c : ℝ) (u v : ℕ → ℝ) :
    rdot m (fun k => c * u k) v = c * rdot m u v := by
  rw [rdot, rdot, Finset.mul_sum]
  apply Finset.sum_congr rfl
  intro k _
  ring

theorem rdot_sum_left (m : ℕ) (s : Finset ℕ) (f : ℕ → ℕ → ℝ) (v : ℕ → ℝ) :
    rdot m (fun k => ∑ a ∈ s, f a k) v = ∑ a ∈ s, rdot m (f a) v := by
  rw [rdot]
  simp only [rdot]
  rw [Finset.sum_comm]
  apply Finset.sum_congr rfl
  intro k _
  rw [Finset.sum_mul]

theorem rdot_self_nonneg (m : ℕ) (u : ℕ → ℝ) : 0 ≤ rdot m u u := by
  rw [rdot]
  apply Finset.sum_nonneg
  intro k _
  exact mul_self_nonneg _

theorem colnorm_nonneg (m : ℕ) (u : ℕ → ℝ) : 0 ≤ colnorm m u :=
  Real.sqrt_nonneg _

theorem colnorm_sq (m : ℕ) (u : ℕ → ℝ) : colnorm m u * colnorm m u = rdot m u u := by
  rw [colnorm]
  exact Real.mul_self_sqrt (rdot_self_nonneg m u)

theorem colnorm_zfun (m : ℕ) : colnorm m zfun = 0 := by
  rw [colnorm, rdot_zfun_right, Real.sqrt_zero]

theorem mgsOrtho_snd_length (m : ℕ) :
    ∀ (done : List (ℕ → ℝ)) (u : ℕ → ℝ),
      (mgsOrtho m done u).2.length = done.length := by
  intro done
  induction done with
  | nil => intro u; rfl
  | cons v rest ih =>
    intro u
    simp only [mgsOrtho, List.length_cons]
    rw [ih]

theorem mgsOrtho_residual (m : ℕ) :
    ∀ (done : List (ℕ → ℝ)) (u : ℕ → ℝ) (k : ℕ),
      (mgsOrtho m done u).1 k =
        u k - ∑ a ∈ Finset.range done.length,
          (mgsOrtho m done u).2.getD a 0 * done.getD a zfun k := by
  intro done
  induction done with
  | nil =>
    intro u k
    simp [mgsOrtho]
  | cons v rest ih =>
    intro u k
    simp only [mgsOrtho, List.length_cons]
    rw [Finset.sum_range_succ']
    have hterm0 : ((rdot m u v ::
        (mgsOrtho m rest (fun k => u k - rdot m u v * v k)).2).getD 0 0) *
        ((v :: rest).getD 0 zfun k) = rdot m u v * v k := rfl
    rw [hterm0]
    have hterms : ∀ a ∈ Finset.range rest.length,
        ((rdot m u v ::
          (mgsOrtho m rest (fun k => u k - rdot m u v * v k)).2).getD (a + 1) 0) *
          ((v :: rest).getD (a + 1) zfun k) =
        ((mgsOrtho m rest (fun k => u k - rdot m u v * v k)).2.getD a 0) *
          (rest.getD a zfun k) := by
      intro a _
      rfl
    rw [Finset.sum_congr rfl hterms]
    rw [ih (fun k => u k - rdot m u v * v k) k]
    ring

theorem mgsOrtho_orth (m : ℕ) :
    ∀ (done : List (ℕ → ℝ)) (u : ℕ → ℝ),
      (∀ a b, a < done.length → b < done.length → a ≠ b →
        rdot m (done.getD a zfun) (done.getD b zfun) = 0) →
      (∀ a, a < done.length →
        rdot m (done.getD a zfun) (done.getD a zfun) = 1 ∨
          done.getD a zfun = zfun) →
      ∀ a, a < done.length →
        rdot m (mgsOrtho m done u).1 (done.getD a zfun) = 0 := by
  intro done
  induction done with
  | nil =>
    intro u _ _ a ha
    exact absurd ha (Nat.not_lt_zero a)
  | cons v rest ih =>
    intro u horth hunit a ha
    have hres : (mgsOrtho m (v :: rest) u).1 =
        (mgsOrtho m rest (fun k => u k - rdot m u v * v k)).1 := rfl
    cases a with
    | zero =>
      have hv0 : (v :: rest).getD 0 zfun = v := rfl
      rw [hres, hv0]
      rcases hunit 0 (by simp) with hu | hz
      · rw [hv0] at hu
        have hexpand : ∀ k, (mgsOrtho m rest (fun k => u k - rdot m u v * v k)).1 k =
            (fun k => u k - rdot m u v * v k) k -
              ∑ b ∈ Finset.range rest.length,
                (mgsOrtho m rest (fun k => u k - rdot m u v * v k)).2.getD b 0 *
                  rest.getD b zfun k :=
          mgsOrtho_residual m rest _
        have hfun : (mgsOrtho m rest (fun k => u k - rdot m u v * v k)).1 =
            fun k => (u k - rdot m u v * v k) -
              (fun k => ∑ b ∈ Finset.range rest.length,
                (mgsOrtho m rest (fun k => u k - rdot m u v * v k)).2.getD b 0 *
                  rest.getD b zfun k) k := by
          funext k
          exact hexpand k
        rw [hfun]
        have hsplit := rdot_sub_left m
          (fun k => u k - rdot m u v * v k)
          (fun k => ∑ b ∈ Finset.range rest.length,
            (mgsOrtho m rest (fun k => u k - rdot m u v * v k)).2.getD b 0 *
              rest.getD b zfun k) v
        rw [hsplit]
        rw [rdot_sub_left m u (fun k => rdot m u v * v k) v,
          rdot_smul_left m (rdot m u v) v v]
        rw [hu]
        rw [rdot_sum_left m (Finset.range rest.length)
          (fun b k => (mgsOrtho m rest (fun k => u k - rdot m u v * v k)).2.getD b 0 *
            rest.getD b zfun k) v]
        have hzero : ∀ b ∈ Finset.range rest.length,
            rdot m (fun k =>
              (mgsOrtho m rest (fun k => u k - rdot m u v * v k)).2.getD b 0 *
                rest.getD b zfun k) v = 0 := by
          intro b hb
          rw [Finset.mem_range] at hb
          rw [rdot_smul_left]
          have := horth (b + 1) 0 (by simpa using hb) (by simp) (by omega)
          have hcons : (v :: rest).getD (b + 1) zfun = rest.getD b zfun := rfl
          rw [hcons] at this
          have hv0'' : (v :: rest).getD 0 zfun = v := rfl
          rw [hv0''] at this
          rw [this, mul_zero]
        rw [Finset.sum_congr rfl hzero]
        simp
      · rw [hv0] at hz
        rw [hz, rdot_zfun_right]
    | succ b =>
      have hb : b < rest.length := by simpa using ha
      have hcons : (v :: rest).getD (b + 1) zfun = rest.getD b zfun := rfl
      rw [hres, hcons]
      apply ih (fun k => u k - rdot m u v * v k) ?_ ?_ b hb
      · intro a2 b2 ha2 hb2 hne
        have := horth (a2 + 1) (b2 + 1) (by simpa using ha2) (by simpa using hb2)
          (by omega)
        exact this
      · intro a2 ha2
        have := hunit (a2 + 1) (by simpa using ha2)
        exact this

theorem getD_append_lt {α : Type} (l l2 : List α) (d : α) (n : ℕ)
    (h : n < l.length) : (l ++ l2).getD n d = l.getD n d := by
  rw [List.getD_eq_getElem?_getD, List.getD_eq_getElem?_getD,
    List.getElem?_append_left h]

theorem getD_append_len {α : Type} (l : List α) (x d : α) :
    (l ++ [x]).getD l.length d = x := by
  rw [List.getD_eq_getElem?_getD, List.getElem?_append_right (le_refl _)]
  simp

theorem fitStep_fst (m : ℕ) (tol : ℝ) (s : List (ℕ → ℝ) × (ℕ → ℕ → ℝ))
    (u0 : ℕ → ℝ) : ∃ w : ℕ → ℝ, (fitStep m tol s u0).1 = s.1 ++ [w] := by
  rw [fitStep]
  by_cases hbr : tol * colnorm m u0 < colnorm m (mgsOrtho m s.1 u0).1
  · rw [if_pos hbr]
    exact ⟨_, rfl⟩
  · rw [if_neg hbr]
    exact ⟨_, rfl⟩

theorem fitStep_len (m : ℕ) (tol : ℝ) (s : List (ℕ → ℝ) × (ℕ → ℕ → ℝ))
    (u0 : ℕ → ℝ) : (fitStep m tol s u0).1.length = s.1.length + 1 := by
  obtain ⟨w, hw⟩ := fitStep_fst m tol s u0
  rw [hw]
  simp

theorem fitStep_R_frame (m : ℕ) (tol : ℝ) (s : List (ℕ → ℝ) × (ℕ → ℕ → ℝ))
    (u0 : ℕ → ℝ) (a b : ℕ) (hb : b < s.1.length) :
    (fitStep m tol s u0).2 a b = s.2 a b := by
  rw [fitStep]
  by_cases hbr : tol * colnorm m u0 < colnorm m (mgsOrtho m s.1 u0).1
  · rw [if_pos hbr]
    show (if a = s.1.length ∧ b = s.1.length then _ else
      writeCol s.2 s.1.length (mgsOrtho m s.1 u0).2 a b) = s.2 a b
    rw [if_neg (fun hc => by omega), writeCol,
      if_neg (fun hc => by omega)]
  · rw [if_neg hbr]
    show (if a = s.1.length ∧ b = s.1.length then _ else
      writeCol s.2 s.1.length (mgsOrtho m s.1 u0).2 a b) = s.2 a b
    rw [if_neg (fun hc => by omega), writeCol,
      if_neg (fun hc => by omega)]

theorem fitStep_inv (m : ℕ) (tol : ℝ) (htol : 0 ≤ tol)
    (inits : List (ℕ → ℝ)) (s : List (ℕ → ℝ) × (ℕ → ℕ → ℝ)) (u0 : ℕ → ℝ)
    (h : FitInv m tol inits s) :
    FitInv m tol (inits ++ [u0]) (fitStep m tol s u0) := by
  have hds : (mgsOrtho m s.1 u0).2.length = s.1.length :=
    mgsOrtho_snd_length m s.1 u0
  have hortho : ∀ a, a < s.1.length →
      rdot m (mgsOrtho m s.1 u0).1 (s.1.getD a zfun) = 0 := by
    apply mgsOrtho_orth m s.1 u0 h.horth
    intro a ha
    by_cases hz : s.2 a a = 0
    · exact Or.inr ((h.hunit a ha).2 hz)
    · exact Or.inl ((h.hunit a ha).1 hz)
  have hresid : ∀ k, (mgsOrtho m s.1 u0).1 k =
      u0 k - ∑ a ∈ Finset.range s.1.length,
        (mgsOrtho m s.1 u0).2.getD a 0 * s.1.getD a zfun k :=
    mgsOrtho_residual m s.1 u0
  have hpostnn : 0 ≤ colnorm m (mgsOrtho m s.1 u0).1 := colnorm_nonneg _ _
  have hthrnn : 0 ≤ tol * colnorm m u0 :=
    mul_nonneg htol (colnorm_nonneg _ _)
  rw [fitStep]
  by_cases hbr : tol * colnorm m u0 < colnorm m (mgsOrtho m s.1 u0).1
  · -- column kept and normalized
    rw [if_pos hbr]
    have hpost0 : 0 < colnorm m (mgsOrtho m s.1 u0).1 :=
      lt_of_le_of_lt hthrnn hbr
    set post := colnorm m (mgsOrtho m s.1 u0).1 with hpostdef
    set w : ℕ → ℝ := fun k => (1 / post) * (mgsOrtho m s.1 u0).1 k with hwdef
    have hgetlt : ∀ a, a < s.1.length →
        (s.1 ++ [w]).getD a zfun = s.1.getD a zfun :=
      fun a ha => getD_append_lt s.1 [w] zfun a ha
    have hgetbj : (s.1 ++ [w]).getD s.1.length zfun = w :=
      getD_append_len s.1 w zfun
    have hww : rdot m w w = 1 := by
      rw [hwdef]
      rw [rdot_smul_left]
      rw [rdot_comm]
      rw [rdot_smul_left]
      rw [rdot_comm]
      have : rdot m (mgsOrtho m s.1 u0).1 (mgsOrtho m s.1 u0).1 =
          post * post := (colnorm_sq m _).symm
      rw [this]
      field_simp
    have hwold : ∀ a, a < s.1.length →
        rdot m w (s.1.getD a zfun) = 0 := by
      intro a ha
      rw [hwdef, rdot_smul_left, hortho a ha, mul_zero]
    constructor
    · show (s.1 ++ [w]).length = (inits ++ [u0]).length
      simp [h.hlen]
    · intro a b ha hb hne
      dsimp only
      simp only [List.length_append, List.length_singleton] at ha hb
      rcases Nat.lt_succ_iff_lt_or_eq.mp ha with hc1 | hc1 <;>
        rcases Nat.lt_succ_iff_lt_or_eq.mp hb with hc2 | hc2
      · rw [hgetlt a hc1, hgetlt b hc2]
        exact h.horth a b hc1 hc2 hne
      · subst hc2
        rw [hgetlt a hc1, hgetbj, rdot_comm]
        exact hwold a hc1
      · subst hc1
        rw [hgetlt b hc2, hgetbj]
        exact hwold b hc2
      · omega
    · intro a ha
      dsimp only
      simp only [List.length_append, List.length_singleton] at ha
      rcases Nat.lt_succ_iff_lt_or_eq.mp ha with hc | hc
      · have hRab : (if a = s.1.length ∧ a = s.1.length then post
            else writeCol s.2 s.1.length (mgsOrtho m s.1 u0).2 a a) =
            s.2 a a := by
          rw [if_neg (fun hcc => by omega), writeCol,
            if_neg (fun hcc => by omega)]
        rw [hRab, hgetlt a hc]
        exact h.hunit a hc
      · subst hc
        constructor
        · intro _
          rw [hgetbj]
          exact hww
        · intro hzz
          rw [if_pos ⟨rfl, rfl⟩] at hzz
          exact absurd hzz (ne_of_gt hpost0)
    · intro a b hba
      dsimp only
      by_cases hcc : a = s.1.length ∧ b = s.1.length
      · omega
      · rw [if_neg hcc, writeCol]
        by_cases hcc2 : b = s.1.length ∧ a < (mgsOrtho m s.1 u0).2.length
      
        · rw [hds] at hcc2
          omega
        · rw [if_neg hcc2]
          exact h.hupper a b hba
    · intro a b hble
      dsimp only
      simp only [List.length_append, List.length_singleton] at hble
      have hb1 : s.1.length < b := by omega
      rw [if_neg (fun hcc => by omega), writeCol,
        if_neg (fun hcc => by omega)]
      exact h.hcols a b (by omega)
    · intro b hb
      dsimp only
      simp only [List.length_append, List.length_singleton] at hb ⊢
      rcases Nat.lt_succ_iff_lt_or_eq.mp hb with hc | hc
      · -- old columns: sum gains only a zero term
        have hbinit : b < inits.length := by
          rw [← h.hlen]
          exact hc
        have hgi : (inits ++ [u0]).getD b zfun = inits.getD b zfun :=
          getD_append_lt inits [u0] zfun b hbinit
        have hsum : ∀ k, ∑ a ∈ Finset.range (s.1.length + 1),
            (if a = s.1.length ∧ b = s.1.length then post
              else writeCol s.2 s.1.length (mgsOrtho m s.1 u0).2 a b) *
              (s.1 ++ [w]).getD a zfun k =
            ∑ a ∈ Finset.range s.1.length, s.2 a b * s.1.getD a zfun k := by
          intro k
          rw [Finset.sum_range_succ]
          have hlastR : (if s.1.length = s.1.length ∧ b = s.1.length then post
              else writeCol s.2 s.1.length (mgsOrtho m s.1 u0).2 s.1.length b) =
              0 := by
            rw [if_neg (fun hcc => by omega), writeCol,
              if_neg (fun hcc => by omega)]
            exact h.hupper s.1.length b hc
          rw [hlastR, zero_mul, add_zero]
          apply Finset.sum_congr rfl
          intro a ha
          rw [Finset.mem_range] at ha
          have hR : (if a = s.1.length ∧ b = s.1.length then post
              else writeCol s.2 s.1.length (mgsOrtho m s.1 u0).2 a b) =
              s.2 a b := by
            rw [if_neg (fun hcc => by omega), writeCol,
              if_neg (fun hcc => by omega)]
          rw [hR, hgetlt a ha]
        have hfeq : (fun k => (inits ++ [u0]).getD b zfun k -
            ∑ a ∈ Finset.range (s.1.length + 1),
              (if a = s.1.length ∧ b = s.1.length then post
                else writeCol s.2 s.1.length (mgsOrtho m s.1 u0).2 a b) *
                (s.1 ++ [w]).getD a zfun k) =
            (fun k => inits.getD b zfun k -
              ∑ a ∈ Finset.range s.1.length, s.2 a b * s.1.getD a zfun k) := by
          funext k
          rw [hsum k, hgi]
        rw [hfeq, hgi]
        exact h.hrecon b hc
      · -- the new column reconstructs exactly
        subst hc
        have hleninits : inits.length = s.1.length := h.hlen.symm
        have hgi : (inits ++ [u0]).getD s.1.length zfun = u0 := by
          rw [← hleninits]
          exact getD_append_len inits u0 zfun
        have hsum : ∀ k, ∑ a ∈ Finset.range (s.1.length + 1),
            (if a = s.1.length ∧ s.1.length = s.1.length then post
              else writeCol s.2 s.1.length (mgsOrtho m s.1 u0).2 a s.1.length) *
              (s.1 ++ [w]).getD a zfun k =
            (u0 k - (mgsOrtho m s.1 u0).1 k) + (mgsOrtho m s.1 u0).1 k := by
          intro k
          rw [Finset.sum_range_succ]
          rw [if_pos ⟨rfl, rfl⟩, hgetbj]
          have hlastterm : post * w k = (mgsOrtho m s.1 u0).1 k := by
            rw [hwdef]
            field_simp
          rw [hlastterm]
          have hrest : ∑ a ∈ Finset.range s.1.length,
              (if a = s.1.length ∧ s.1.length = s.1.length then post
                else writeCol s.2 s.1.length (mgsOrtho m s.1 u0).2 a
                  s.1.length) * (s.1 ++ [w]).getD a zfun k =
              ∑ a ∈ Finset.range s.1.length,
                (mgsOrtho m s.1 u0).2.getD a 0 * s.1.getD a zfun k := by
            apply Finset.sum_congr rfl
            intro a ha
            rw [Finset.mem_range] at ha
            have hR : (if a = s.1.length ∧ s.1.length = s.1.length then post
                else writeCol s.2 s.1.length (mgsOrtho m s.1 u0).2 a
                  s.1.length) = (mgsOrtho m s.1 u0).2.getD a 0 := by
              rw [if_neg (fun hcc => by omega), writeCol,
                if_pos ⟨rfl, by omega⟩]
            rw [hR, hgetlt a ha]
          rw [hrest]
          have hrk := hresid k
          linarith [hrk]
        have hfeq : (fun k => (inits ++ [u0]).getD s.1.length zfun k -
            ∑ a ∈ Finset.range (s.1.length + 1),
              (if a = s.1.length ∧ s.1.length = s.1.length then post
                else writeCol s.2 s.1.length (mgsOrtho m s.1 u0).2 a
                  s.1.length) * (s.1 ++ [w]).getD a zfun k) = zfun := by
          funext k
          rw [hsum k, hgi, zfun]
          ring
        rw [hfeq, colnorm_zfun, hgi]
        exact hthrnn
  · -- column dropped and zeroed
    rw [if_neg hbr]
    have hple : colnorm m (mgsOrtho m s.1 u0).1 ≤ tol * colnorm m u0 :=
      le_of_not_lt hbr
    have hgetlt : ∀ a, a < s.1.length →
        (s.1 ++ [fun _ => (0:ℝ)]).getD a zfun = s.1.getD a zfun :=
      fun a ha => getD_append_lt s.1 [fun _ => (0:ℝ)] zfun a ha
    have hgetbj : (s.1 ++ [fun _ => (0:ℝ)]).getD s.1.length zfun =
        fun _ => (0:ℝ) := getD_append_len s.1 _ zfun
    have hz1 : ∀ v : ℕ → ℝ, rdot m (fun _ => (0:ℝ)) v = 0 := by
      intro v
      rw [rdot]
      apply Finset.sum_eq_zero
      intro k _
      ring
    have hz2 : ∀ v : ℕ → ℝ, rdot m v (fun _ => (0:ℝ)) = 0 := by
      intro v
      rw [rdot]
      apply Finset.sum_eq_zero
      intro k _
      ring
    constructor
    · show (s.1 ++ [fun _ => (0:ℝ)]).length = (inits ++ [u0]).length
      simp [h.hlen]
    · intro a b ha hb hne
      dsimp only
      simp only [List.length_append, List.length_singleton] at ha hb
      rcases Nat.lt_succ_iff_lt_or_eq.mp ha with hc1 | hc1 <;>
        rcases Nat.lt_succ_iff_lt_or_eq.mp hb with hc2 | hc2
      · rw [hgetlt a hc1, hgetlt b hc2]
        exact h.horth a b hc1 hc2 hne
      · subst hc2
        rw [hgetlt a hc1, hgetbj]
        exact hz2 _
      · subst hc1
        rw [hgetlt b hc2, hgetbj]
        exact hz1 _
      · omega
    · intro a ha
      dsimp only
      simp only [List.length_append, List.length_singleton] at ha
      rcases Nat.lt_succ_iff_lt_or_eq.mp ha with hc | hc
      · have hRab : (if a = s.1.length ∧ a = s.1.length then (0:ℝ)
            else writeCol s.2 s.1.length (mgsOrtho m s.1 u0).2 a a) =
            s.2 a a := by
          rw [if_neg (fun hcc => by omega), writeCol,
            if_neg (fun hcc => by omega)]
        rw [hRab, hgetlt a hc]
        exact h.hunit a hc
      · subst hc
        constructor
        · intro hne
          have hz0 : (if s.1.length = s.1.length ∧ s.1.length = s.1.length
              then (0:ℝ)
              else writeCol s.2 s.1.length (mgsOrtho m s.1 u0).2
                s.1.length s.1.length) = 0 := if_pos ⟨rfl, rfl⟩
          exact absurd hz0 hne
        · intro _
          rw [hgetbj]
          rfl
    · intro a b hba
      dsimp only
      by_cases hcc : a = s.1.length ∧ b = s.1.length
      · omega
      · rw [if_neg hcc, writeCol]
        by_cases hcc2 : b = s.1.length ∧ a < (mgsOrtho m s.1 u0).2.length
        · rw [hds] at hcc2
          omega
        · rw [if_neg hcc2]
          exact h.hupper a b hba
    · intro a b hble
      dsimp only
      simp only [List.length_append, List.length_singleton] at hble
      rw [if_neg (fun hcc => by omega), writeCol,
        if_neg (fun hcc => by omega)]
      exact h.hcols a b (by omega)
    · intro b hb
      dsimp only
      simp only [List.length_append, List.length_singleton] at hb ⊢
      rcases Nat.lt_succ_iff_lt_or_eq.mp hb with hc | hc
      · have hbinit : b < inits.length := by
          rw [← h.hlen]
          exact hc
        have hgi : (inits ++ [u0]).getD b zfun = inits.getD b zfun :=
          getD_append_lt inits [u0] zfun b hbinit
        have hsum : ∀ k, ∑ a ∈ Finset.range (s.1.length + 1),
            (if a = s.1.length ∧ b = s.1.length then (0:ℝ)
              else writeCol s.2 s.1.length (mgsOrtho m s.1 u0).2 a b) *
              (s.1 ++ [fun _ => (0:ℝ)]).getD a zfun k =
            ∑ a ∈ Finset.range s.1.length, s.2 a b * s.1.getD a zfun k := by
          intro k
          rw [Finset.sum_range_succ]
          have hlastR : (if s.1.length = s.1.length ∧ b = s.1.length then (0:ℝ)
              else writeCol s.2 s.1.length (mgsOrtho m s.1 u0).2
                s.1.length b) = 0 := by
            rw [if_neg (fun hcc => by omega), writeCol,
              if_neg (fun hcc => by omega)]
            exact h.hupper s.1.length b hc
          rw [hlastR, zero_mul, add_zero]
          apply Finset.sum_congr rfl
          intro a ha
          rw [Finset.mem_range] at ha
          have hR : (if a = s.1.length ∧ b = s.1.length then (0:ℝ)
              else writeCol s.2 s.1.length (mgsOrtho m s.1 u0).2 a b) =
              s.2 a b := by
            rw [if_neg (fun hcc => by omega), writeCol,
              if_neg (fun hcc => by omega)]
          rw [hR, hgetlt a ha]
        have hfeq : (fun k => (inits ++ [u0]).getD b zfun k -
            ∑ a ∈ Finset.range (s.1.length + 1),
              (if a = s.1.length ∧ b = s.1.length then (0:ℝ)
                else writeCol s.2 s.1.length (mgsOrtho m s.1 u0).2 a b) *
                (s.1 ++ [fun _ => (0:ℝ)]).getD a zfun k) =
            (fun k => inits.getD b zfun k -
              ∑ a ∈ Finset.range s.1.length, s.2 a b * s.1.getD a zfun k) := by
          funext k
          rw [hsum k, hgi]
        rw [hfeq, hgi]
        exact h.hrecon b hc
      · subst hc
        have hleninits : inits.length = s.1.length := h.hlen.symm
        have hgi : (inits ++ [u0]).getD s.1.length zfun = u0 := by
          rw [← hleninits]
          exact getD_append_len inits u0 zfun
        have hsum : ∀ k, ∑ a ∈ Finset.range (s.1.length + 1),
            (if a = s.1.length ∧ s.1.length = s.1.length then (0:ℝ)
              else writeCol s.2 s.1.length (mgsOrtho m s.1 u0).2 a s.1.length) *
              (s.1 ++ [fun _ => (0:ℝ)]).getD a zfun k =
            u0 k - (mgsOrtho m s.1 u0).1 k := by
          intro k
          rw [Finset.sum_range_succ]
          rw [if_pos ⟨rfl, rfl⟩, zero_mul, add_zero]
          have hrest : ∑ a ∈ Finset.range s.1.length,
              (if a = s.1.length ∧ s.1.length = s.1.length then (0:ℝ)
                else writeCol s.2 s.1.length (mgsOrtho m s.1 u0).2 a
                  s.1.length) * (s.1 ++ [fun _ => (0:ℝ)]).getD a zfun k =
              ∑ a ∈ Finset.range s.1.length,
                (mgsOrtho m s.1 u0).2.getD a 0 * s.1.getD a zfun k := by
            apply Finset.sum_congr rfl
            intro a ha
            rw [Finset.mem_range] at ha
            have hR : (if a = s.1.length ∧ s.1.length = s.1.length then (0:ℝ)
                else writeCol s.2 s.1.length (mgsOrtho m s.1 u0).2 a
                  s.1.length) = (mgsOrtho m s.1 u0).2.getD a 0 := by
              rw [if_neg (fun hcc => by omega), writeCol,
                if_pos ⟨rfl, by omega⟩]
            rw [hR, hgetlt a ha]
          rw [hrest]
          have hrk := hresid k
          linarith [hrk]
        have hfeq : (fun k => (inits ++ [u0]).getD s.1.length zfun k -
            ∑ a ∈ Finset.range (s.1.length + 1),
              (if a = s.1.length ∧ s.1.length = s.1.length then (0:ℝ)
                else writeCol s.2 s.1.length (mgsOrtho m s.1 u0).2 a
                  s.1.length) * (s.1 ++ [fun _ => (0:ℝ)]).getD a zfun k) =
            (mgsOrtho m s.1 u0).1 := by
          funext k
          rw [hsum k, hgi]
          ring
        rw [hfeq, hgi]
        exact hple

theorem fit_fold_inv (m : ℕ) (tol : ℝ) (htol : 0 ≤ tol) :
    ∀ (cols inits : List (ℕ → ℝ)) (s : List (ℕ → ℝ) × (ℕ → ℕ → ℝ)),
      FitInv m tol inits s →
      FitInv m tol (inits ++ cols) (cols.foldl (fitStep m tol) s) := by
  intro cols
  induction cols with
  | nil =>
    intro inits s h
    simpa using h
  | cons c rest ih =>
    intro inits s h
    rw [List.foldl_cons]
    have h3 := ih (inits ++ [c]) (fitStep m tol s c)
      (fitStep_inv m tol htol inits s c h)
    have he : inits ++ [c] ++ rest = inits ++ (c :: rest) := by
      rw [List.append_assoc]
      rfl
    rw [he] at h3
    exact h3

theorem FitInv_init (m : ℕ) (tol : ℝ) :
    FitInv m tol [] ([], fun _ _ => 0) := by
  refine ⟨rfl, ?_, ?_, ?_, ?_, ?_⟩
  · intro a b ha _ _
    exact absurd ha (Nat.not_lt_zero a)
  · intro a ha
    exact absurd ha (Nat.not_lt_zero a)
  · intro a b _
    rfl
  · intro a b _
    rfl
  · intro b hb
    exact absurd hb (Nat.not_lt_zero b)

theorem fit_aggregate_inv (m : ℕ) (tol : ℝ) (htol : 0 ≤ tol)
    (cols : List (ℕ → ℝ)) :
    FitInv m tol cols (fit_aggregate m tol cols) := by
  have h := fit_fold_inv m tol htol cols [] ([], fun _ _ => 0)
    (FitInv_init m tol)
  rw [List.nil_append] at h
  exact h

theorem getD_map_gen {α β : Type} (f : α → β) (l : List α) (j : ℕ)
    (hj : j < l.length) (d : α) (d2 : β) :
    (l.map f).getD j d2 = f (l.getD j d) := by
  rw [List.getD_eq_getElem?_getD, List.getElem?_map,
    List.getD_eq_getElem?_getD, List.getElem?_eq_getElem hj]
  rfl

theorem range_getD (n b : ℕ) (hb : b < n) : (List.range n).getD b 0 = b := by
  rw [List.getD_eq_getElem?_getD, List.getElem?_range hb]
  rfl

theorem aggInit_length (K1 K2 : ℕ) (B : ℕ → ℕ → ℕ → ℝ) (ms : List ℕ) :
    (aggInit K1 K2 B ms).length = K2 := by
  rw [aggInit, List.length_map, List.length_range]

theorem aggInit_getD (K1 K2 : ℕ) (B : ℕ → ℕ → ℕ → ℝ) (ms : List ℕ) (b : ℕ)
    (hb : b < K2) : (aggInit K1 K2 B ms).getD b zfun = aggCol K1 B ms b := by
  rw [aggInit, getD_map_gen (aggCol K1 B ms) (List.range K2) b
    (by simpa using hb) 0, range_getD K2 b hb]

theorem fit_candidates_getD (K1 K2 : ℕ) (B : ℕ → ℕ → ℕ → ℝ)
    (aggs : List (List ℕ)) (tol : ℝ) (j : ℕ) (hj : j < aggs.length) :
    (fit_candidates_common K1 K2 B aggs tol).getD j ([], fun _ _ => 0) =
      fit_aggregate ((aggs.getD j []).length * K1) tol
        (aggInit K1 K2 B (aggs.getD j [])) := by
  rw [fit_candidates_common, getD_map_gen _ aggs j hj []]

/-- C2: for every aggregation pattern (the aggregates' member block row
lists), candidate block `B`, and tolerance `tol ≥ 0`, after
`fit_candidates_common`: within each aggregate `j`, the fitted columns of `P`
restricted to that aggregate whose `R` diagonal entry is nonzero are
orthonormal under the conjugating inner product (exactly, in the exact-real
embedding: unit norm and pairwise zero dot products), each per-aggregate `R`
block is upper triangular, and `P*R` reconstructs the restricted candidate
columns within the drop tolerance:
`norm(B_col - sum_a R[a,col] * P_a) <= tol * norm(B_col)`. -/
theorem C2_fit_candidates_orthonormal (K1 K2 : ℕ) (B : ℕ → ℕ → ℕ → ℝ)
    (aggs : List (List ℕ)) (tol : ℝ) (htol : 0 ≤ tol) (j : ℕ)
    (hj : j < aggs.length) :
    (∀ a b, a < K2 → b < K2 →
      ((fit_candidates_common K1 K2 B aggs tol).getD j
        ([], fun _ _ => 0)).2 a a ≠ 0 →
      ((fit_candidates_common K1 K2 B aggs tol).getD j
        ([], fun _ _ => 0)).2 b b ≠ 0 →
      rdot ((aggs.getD j []).length * K1)
        (((fit_candidates_common K1 K2 B aggs tol).getD j
          ([], fun _ _ => 0)).1.getD a zfun)
        (((fit_candidates_common K1 K2 B aggs tol).getD j
          ([], fun _ _ => 0)).1.getD b zfun) =
        if a = b then 1 else 0) ∧
    (∀ a b, b < a →
      ((fit_candidates_common K1 K2 B aggs tol).getD j
        ([], fun _ _ => 0)).2 a b = 0) ∧
    (∀ b, b < K2 →
      colnorm ((aggs.getD j []).length * K1)
        (fun k => aggCol K1 B (aggs.getD j []) b k -
          ∑ a ∈ Finset.range K2,
            ((fit_candidates_common K1 K2 B aggs tol).getD j
              ([], fun _ _ => 0)).2 a b *
            ((fit_candidates_common K1 K2 B aggs tol).getD j
              ([], fun _ _ => 0)).1.getD a zfun k) ≤
        tol * colnorm ((aggs.getD j []).length * K1)
          (aggCol K1 B (aggs.getD j []) b)) := by
  rw [fit_candidates_getD K1 K2 B aggs tol j hj]
  have inv := fit_aggregate_inv ((aggs.getD j []).length * K1) tol htol
    (aggInit K1 K2 B (aggs.getD j []))
  have hplen : (fit_aggregate ((aggs.getD j []).length * K1) tol
      (aggInit K1 K2 B (aggs.getD j []))).1.length = K2 := by
    rw [inv.hlen, aggInit_length]
  refine ⟨?_, inv.hupper, ?_⟩
  · intro a b ha hb hna hnb
    by_cases hab : a = b
    · subst hab
      rw [if_pos rfl]
      exact (inv.hunit a (by rw [hplen]; exact ha)).1 hna
    · rw [if_neg hab]
      exact inv.horth a b (by rw [hplen]; exact ha) (by rw [hplen]; exact hb) hab
  · intro b hb
    have h1 := inv.hrecon b (by rw [hplen]; exact hb)
    rw [aggInit_getD K1 K2 B (aggs.getD j []) b hb, hplen] at h1
    exact h1

theorem C2_fit_candidates_orthonormal_witness :
    (0:ℝ) ≤ 0 ∧ 0 < ([[(0:ℕ)]] : List (List ℕ)).length ∧
    (∀ a b, b < a →
      ((fit_candidates_common 1 1 (fun _ _ _ => 1) [[0]] 0).getD 0
        ([], fun _ _ => 0)).2 a b = 0) :=
  ⟨le_refl 0, by simp,
    (C2_fit_candidates_orthonormal 1 1 (fun _ _ _ => 1) [[0]] 0
      (le_refl 0) 0 (by simp)).2.1⟩

theorem fit_fold_len (m : ℕ) (tol : ℝ) :
    ∀ (l : List (ℕ → ℝ)) (s : List (ℕ → ℝ) × (ℕ → ℕ → ℝ)),
      (l.foldl (fitStep m tol) s).1.length = s.1.length + l.length := by
  intro l
  induction l with
  | nil => intro s; simp
  | cons u rest ih =>
    intro s
    rw [List.foldl_cons, ih (fitStep m tol s u), fitStep_len]
    simp only [List.length_cons]
    omega

theorem fitPrefix_len (m : ℕ) (tol : ℝ) (cols : List (ℕ → ℝ)) (bj : ℕ)
    (hbj : bj ≤ cols.length) : (fitPrefix m tol cols bj).1.length = bj := by
  rw [fitPrefix, fit_fold_len]
  simp [List.length_take, Nat.min_eq_left hbj]

theorem fit_fold_frame (m : ℕ) (tol : ℝ) :
    ∀ (l : List (ℕ → ℝ)) (s : List (ℕ → ℝ) × (ℕ → ℕ → ℝ)) (b : ℕ),
      b < s.1.length →
      (l.foldl (fitStep m tol) s).1.getD b zfun = s.1.getD b zfun ∧
      ∀ a, (l.foldl (fitStep m tol) s).2 a b = s.2 a b := by
  intro l
  induction l with
  | nil => intro s b hb; exact ⟨rfl, fun a => rfl⟩
  | cons u rest ih =>
    intro s b hb
    rw [List.foldl_cons]
    have hb2 : b < (fitStep m tol s u).1.length := by
      rw [fitStep_len]
      omega
    obtain ⟨h1, h2⟩ := ih (fitStep m tol s u) b hb2
    obtain ⟨w, hw⟩ := fitStep_fst m tol s u
    refine ⟨?_, fun a => ?_⟩
    · rw [h1, hw, getD_append_lt _ _ _ _ hb]
    · rw [h2 a, fitStep_R_frame m tol s u a b hb]

theorem fit_aggregate_split (m : ℕ) (tol : ℝ) (cols : List (ℕ → ℝ)) (bj : ℕ)
    (hbj : bj < cols.length) :
    fit_aggregate m tol cols =
      (cols.drop (bj + 1)).foldl (fitStep m tol)
        (fitStep m tol (fitPrefix m tol cols bj) (cols.getD bj zfun)) := by
  have hd : cols.drop bj = cols.getD bj zfun :: cols.drop (bj + 1) := by
    rw [List.getD_eq_getElem cols zfun hbj]
    exact List.drop_eq_getElem_cons hbj
  calc fit_aggregate m tol cols
      = ((cols.take bj ++ cols.drop bj).foldl (fitStep m tol)
          ([], fun _ _ => 0)) := by
        rw [List.take_append_drop, fit_aggregate]
    _ = (cols.drop bj).foldl (fitStep m tol) (fitPrefix m tol cols bj) := by
        rw [List.foldl_append, fitPrefix]
    _ = _ := by rw [hd, List.foldl_cons]

theorem fitStep_dropped (m : ℕ) (tol : ℝ)
    (s : List (ℕ → ℝ) × (ℕ → ℕ → ℝ)) (u0 : ℕ → ℝ)
    (h : colnorm m (mgsOrtho m s.1 u0).1 ≤ tol * colnorm m u0) :
    (fitStep m tol s u0).1.getD s.1.length zfun = zfun ∧
    (fitStep m tol s u0).2 s.1.length s.1.length = 0 ∧
    ∀ a, a < s.1.length →
      (fitStep m tol s u0).2 a s.1.length =
        (mgsOrtho m s.1 u0).2.getD a 0 := by
  rw [fitStep, if_neg (not_lt.mpr h)]
  refine ⟨?_, ?_, ?_⟩
  · show (s.1 ++ [fun _ => 0]).getD s.1.length zfun = zfun
    exact getD_append_len s.1 _ zfun
  · show (if s.1.length = s.1.length ∧ s.1.length = s.1.length then (0:ℝ)
      else writeCol s.2 s.1.length (mgsOrtho m s.1 u0).2 s.1.length
        s.1.length) = 0
    rw [if_pos ⟨rfl, rfl⟩]
  · intro a ha
    show (if a = s.1.length ∧ s.1.length = s.1.length then (0:ℝ)
      else writeCol s.2 s.1.length (mgsOrtho m s.1 u0).2 a s.1.length) = _
    rw [if_neg (fun hc => by omega), writeCol,
      if_pos ⟨rfl, by rw [mgsOrtho_snd_length]; exact ha⟩]

theorem fitStep_kept (m : ℕ) (tol : ℝ)
    (s : List (ℕ → ℝ) × (ℕ → ℕ → ℝ)) (u0 : ℕ → ℝ)
    (h : tol * colnorm m u0 < colnorm m (mgsOrtho m s.1 u0).1) :
    (fitStep m tol s u0).1.getD s.1.length zfun =
      (fun k => (1 / colnorm m (mgsOrtho m s.1 u0).1) *
        (mgsOrtho m s.1 u0).1 k) ∧
    (fitStep m tol s u0).2 s.1.length s.1.length =
      colnorm m (mgsOrtho m s.1 u0).1 ∧
    ∀ a, a < s.1.length →
      (fitStep m tol s u0).2 a s.1.length =
        (mgsOrtho m s.1 u0).2.getD a 0 := by
  rw [fitStep, if_pos h]
  refine ⟨?_, ?_, ?_⟩
  · show (s.1 ++ [fun k => (1 / colnorm m (mgsOrtho m s.1 u0).1) *
        (mgsOrtho m s.1 u0).1 k]).getD s.1.length zfun = _
    exact getD_append_len s.1 _ zfun
  · show (if s.1.length = s.1.length ∧ s.1.length = s.1.length then
      colnorm m (mgsOrtho m s.1 u0).1
      else writeCol s.2 s.1.length (mgsOrtho m s.1 u0).2 s.1.length
        s.1.length) = _
    rw [if_pos ⟨rfl, rfl⟩]
  · intro a ha
    show (if a = s.1.length ∧ s.1.length = s.1.length then _
      else writeCol s.2 s.1.length (mgsOrtho m s.1 u0).2 a s.1.length) = _
    rw [if_neg (fun hc => by omega), writeCol,
      if_pos ⟨rfl, by rw [mgsOrtho_snd_length]; exact ha⟩]

/-- C8: `fit_candidates_common` never signals an error on numerical
degeneracy. For each aggregate `j` and candidate block column `bj`, with
`res` the Gram-Schmidt residual of that column against the previously
processed columns and `post`/`pre` its norms after/before orthogonalization:
when `post <= tol * pre` the whole column of `P` is set to zero and `R`'s
diagonal entry `(bj,bj)` is set to `0` while the already-recorded entries
`(bi,bj)` with `bi < bj` are left in place; when `post > tol * pre` the
column is scaled by `1/post` and `(bj,bj)` receives `post`; in both cases
processing continues and the aggregate's output has its full `K2` columns. -/
theorem C8_fit_candidates_degenerate (K1 K2 : ℕ) (B : ℕ → ℕ → ℕ → ℝ)
    (aggs : List (List ℕ)) (tol : ℝ) (j bj : ℕ)
    (hj : j < aggs.length) (hbj : bj < K2) :
    (colnorm ((aggs.getD j []).length * K1)
        (mgsOrtho ((aggs.getD j []).length * K1)
          (fitPrefix ((aggs.getD j []).length * K1) tol
            (aggInit K1 K2 B (aggs.getD j [])) bj).1
          (aggCol K1 B (aggs.getD j []) bj)).1 ≤
      tol * colnorm ((aggs.getD j []).length * K1)
        (aggCol K1 B (aggs.getD j []) bj) →
      ((fit_candidates_common K1 K2 B aggs tol).getD j
        ([], fun _ _ => 0)).1.getD bj zfun = zfun ∧
      ((fit_candidates_common K1 K2 B aggs tol).getD j
        ([], fun _ _ => 0)).2 bj bj = 0 ∧
      ∀ a, a < bj →
        ((fit_candidates_common K1 K2 B aggs tol).getD j
          ([], fun _ _ => 0)).2 a bj =
        (mgsOrtho ((aggs.getD j []).length * K1)
          (fitPrefix ((aggs.getD j []).length * K1) tol
            (aggInit K1 K2 B (aggs.getD j [])) bj).1
          (aggCol K1 B (aggs.getD j []) bj)).2.getD a 0) ∧
    (tol * colnorm ((aggs.getD j []).length * K1)
        (aggCol K1 B (aggs.getD j []) bj) <
      colnorm ((aggs.getD j []).length * K1)
        (mgsOrtho ((aggs.getD j []).length * K1)
          (fitPrefix ((aggs.getD j []).length * K1) tol
            (aggInit K1 K2 B (aggs.getD j [])) bj).1
          (aggCol K1 B (aggs.getD j []) bj)).1 →
      ((fit_candidates_common K1 K2 B aggs tol).getD j
        ([], fun _ _ => 0)).1.getD bj zfun =
        (fun k => (1 / colnorm ((aggs.getD j []).length * K1)
            (mgsOrtho ((aggs.getD j []).length * K1)
              (fitPrefix ((aggs.getD j []).length * K1) tol
                (aggInit K1 K2 B (aggs.getD j [])) bj).1
              (aggCol K1 B (aggs.getD j []) bj)).1) *
          (mgsOrtho ((aggs.getD j []).length * K1)
            (fitPrefix ((aggs.getD j []).length * K1) tol
              (aggInit K1 K2 B (aggs.getD j [])) bj).1
            (aggCol K1 B (aggs.getD j []) bj)).1 k) ∧
      ((fit_candidates_common K1 K2 B aggs tol).getD j
        ([], fun _ _ => 0)).2 bj bj =
        colnorm ((aggs.getD j []).length * K1)
          (mgsOrtho ((aggs.getD j []).length * K1)
            (fitPrefix ((aggs.getD j []).length * K1) tol
              (aggInit K1 K2 B (aggs.getD j [])) bj).1
            (aggCol K1 B (aggs.getD j []) bj)).1 ∧
      ∀ a, a < bj →
        ((fit_candidates_common K1 K2 B aggs tol).getD j
          ([], fun _ _ => 0)).2 a bj =
        (mgsOrtho ((aggs.getD j []).length * K1)
          (fitPrefix ((aggs.getD j []).length * K1) tol
            (aggInit K1 K2 B (aggs.getD j [])) bj).1
          (aggCol K1 B (aggs.getD j []) bj)).2.getD a 0) ∧
    ((fit_candidates_common K1 K2 B aggs tol).getD j
      ([], fun _ _ => 0)).1.length = K2 := by
  have hlen : bj < (aggInit K1 K2 B (aggs.getD j [])).length := by
    rw [aggInit_length]
    exact hbj
  have hpl : (fitPrefix ((aggs.getD j []).length * K1) tol
      (aggInit K1 K2 B (aggs.getD j [])) bj).1.length = bj :=
    fitPrefix_len _ _ _ _ (le_of_lt hlen)
  have hgd : (aggInit K1 K2 B (aggs.getD j [])).getD bj zfun =
      aggCol K1 B (aggs.getD j []) bj := aggInit_getD K1 K2 B _ bj hbj
  have hlt : bj < (fitStep ((aggs.getD j []).length * K1) tol
      (fitPrefix ((aggs.getD j []).length * K1) tol
        (aggInit K1 K2 B (aggs.getD j [])) bj)
      (aggCol K1 B (aggs.getD j []) bj)).1.length := by
    rw [fitStep_len, hpl]
    omega
  obtain ⟨hcol, hR⟩ := fit_fold_frame ((aggs.getD j []).length * K1) tol
    ((aggInit K1 K2 B (aggs.getD j [])).drop (bj + 1))
    (fitStep ((aggs.getD j []).length * K1) tol
      (fitPrefix ((aggs.getD j []).length * K1) tol
        (aggInit K1 K2 B (aggs.getD j [])) bj)
      (aggCol K1 B (aggs.getD j []) bj)) bj hlt
  refine ⟨?_, ?_, ?_⟩
  · intro hdrop
    obtain ⟨d1, d2, d3⟩ := fitStep_dropped ((aggs.getD j []).length * K1) tol
      (fitPrefix ((aggs.getD j []).length * K1) tol
        (aggInit K1 K2 B (aggs.getD j [])) bj)
      (aggCol K1 B (aggs.getD j []) bj) hdrop
    rw [hpl] at d1 d2 d3
    rw [fit_candidates_getD K1 K2 B aggs tol j hj,
      fit_aggregate_split _ tol _ bj hlen, hgd]
    exact ⟨by rw [hcol]; exact d1,
      by rw [hR bj]; exact d2,
      fun a ha => by rw [hR a]; exact d3 a ha⟩
  · intro hkeep
    obtain ⟨d1, d2, d3⟩ := fitStep_kept ((aggs.getD j []).length * K1) tol
      (fitPrefix ((aggs.getD j []).length * K1) tol
        (aggInit K1 K2 B (aggs.getD j [])) bj)
      (aggCol K1 B (aggs.getD j []) bj) hkeep
    rw [hpl] at d1 d2 d3
    rw [fit_candidates_getD K1 K2 B aggs tol j hj,
      fit_aggregate_split _ tol _ bj hlen, hgd]
    exact ⟨by rw [hcol]; exact d1,
      by rw [hR bj]; exact d2,
      fun a ha => by rw [hR a]; exact d3 a ha⟩
  · rw [fit_candidates_getD K1 K2 B aggs tol j hj, fit_aggregate,
      fit_fold_len, aggInit_length]
    simp

theorem C8_fit_candidates_degenerate_witness :
    0 < ([[(0:ℕ)]] : List (List ℕ)).length ∧ (0:ℕ) < 1 ∧
    ((fit_candidates_common 1 1 (fun _ _ _ => 1) [[0]] 0).getD 0
      ([], fun _ _ => 0)).1.length = 1 :=
  ⟨by simp, by norm_num,
    (C8_fit_candidates_degenerate 1 1 (fun _ _ _ => 1) [[0]] 0 0 0
      (by simp) (by norm_num)).2.2⟩
